import Mathlib

/-!
Verification of the serde_toon TOON codec (Rust) against its natural-language
specification.  The development shallowly embeds the data model (`value.rs`,
`map.rs`), the serializer (`ser.rs`), the options (`options.rs`) and the
recursive-descent parser (`de.rs`) as executable Lean definitions, and settles
the frozen claims C1..C10 as theorems about those definitions.

Modelling conventions:
* Rust strings are modelled as `String` / `List Char`.  The Rust code scans
  bytes only when looking for the ASCII characters `:` and a newline, and ASCII
  bytes never occur inside a multi-byte UTF-8 sequence, so byte scanning and
  char scanning agree and the embedding scans chars.
* `f64` payloads are modelled by the type `F64`: either an exact rational or
  one of the IEEE special values.  No settled claim depends on IEEE-754
  rounding; claims only inspect which variant a number takes, the acceptance
  of the textual float grammar, and the display of the special values.
* `chrono::DateTime` is an external crate type; its payload is carried as an
  integer surrogate and its `to_rfc3339` rendering by a surrogate function.
  No claim depends on either.
* Parser error messages are carried verbatim where they are plain ASCII words
  and paraphrased otherwise; no claim depends on message text beyond equality
  of the embedding with itself.
-/

namespace SerdeToon

/-! ## Character helpers (Rust `char` methods) -/

/-- Left brace character, written numerically. -/
def lbrace : Char := Char.ofNat 123

/-- Right brace character, written numerically. -/
def rbrace : Char := Char.ofNat 125

/-- NUL character. -/
def nulChar : Char := Char.ofNat 0

/-- Rust `char::is_whitespace`: the Unicode White_Space property. -/
def rustIsWhitespace (c : Char) : Bool :=
  c = ' ' || c = '\t' || c = '\n' || c = '\x0d' ||
  c = Char.ofNat 0x0b || c = Char.ofNat 0x0c ||
  c = Char.ofNat 0x85 || c = Char.ofNat 0xa0 ||
  c = Char.ofNat 0x1680 ||
  (Char.ofNat 0x2000 ≤ c && c ≤ Char.ofNat 0x200a) ||
  c = Char.ofNat 0x2028 || c = Char.ofNat 0x2029 ||
  c = Char.ofNat 0x202f || c = Char.ofNat 0x205f ||
  c = Char.ofNat 0x3000

/-- Rust `char::is_ascii_digit`. -/
def isAsciiDigit (c : Char) : Bool := '0' ≤ c && c ≤ '9'

/-- Rust `char::is_ascii_hexdigit`. -/
def isAsciiHexdigit (c : Char) : Bool :=
  isAsciiDigit c || ('a' ≤ c && c ≤ 'f') || ('A' ≤ c && c ≤ 'F')

/-- Value of an ASCII hex digit. -/
def hexDigitVal (c : Char) : Nat :=
  if isAsciiDigit c then c.toNat - 48
  else if 'a' ≤ c && c ≤ 'f' then c.toNat - 87
  else c.toNat - 55

/-- Rust `str::trim`: strip leading and trailing Unicode whitespace. -/
def rustTrim (cs : List Char) : List Char :=
  ((cs.dropWhile rustIsWhitespace).reverse.dropWhile rustIsWhitespace).reverse

/-! ## Decimal rendering (Rust `i64: Display` / `u64: Display`)

Rust formats integers as plain decimal digit runs with a leading minus sign
for negative values.  We embed that formatter directly rather than reusing
`Nat.repr`, so that its correctness lemmas stay self-contained. -/

/-- Decimal digit character for a value below ten. -/
def digitChar10 (d : Nat) : Char := Char.ofNat (48 + d)

/-- Fueled digit-list worker; the fuel `m + 1` used below always suffices
since dividing by ten strictly decreases a positive number. -/
def natDigitsAux : Nat → Nat → List Char
  | 0, _ => []
  | f + 1, m =>
    if m < 10 then [digitChar10 m]
    else natDigitsAux f (m / 10) ++ [digitChar10 (m % 10)]

/-- Decimal digit list of a natural number, most significant first. -/
def natDigits (m : Nat) : List Char := natDigitsAux (m + 1) m

/-- Rust `u64::to_string` (and `usize`), as a Lean `String`. -/
def natToString (m : Nat) : String := String.mk (natDigits m)

/-- Rust `i64::to_string`: decimal digits with a sign for negatives. -/
def i64ToString (i : Int) : String :=
  if i < 0 then String.mk ('-' :: natDigits i.natAbs) else natToString i.natAbs

/-- Numeric value of a decimal digit list (fold, most significant first). -/
def digitsToNat (cs : List Char) : Nat :=
  cs.foldl (fun acc c => acc * 10 + (c.toNat - 48)) 0

/-! ## Rust numeric parsing (`str::parse`)

`i64::from_str` accepts an optional sign followed by one or more ASCII
digits, and fails on over/underflow.  `f64::from_str` accepts an optional
sign followed by either a case-insensitive special word (inf, infinity, nan)
or a decimal number with optional fraction and exponent; it never fails on
range (out-of-range values round to infinity). -/

/-- Strip one leading plus or minus sign, returning the sign as an integer. -/
def splitSign (cs : List Char) : Int × List Char :=
  match cs with
  | '+' :: r => (1, r)
  | '-' :: r => (-1, r)
  | r => (1, r)

/-- Rust `i64::MIN` and `i64::MAX` bounds. -/
def i64Min : Int := -(2 ^ 63)

/-- Upper bound of the 64-bit signed range. -/
def i64Max : Int := 2 ^ 63 - 1

/-- Rust `s.parse::<i64>()`, returning the value on success. -/
def rustI64Parse (s : String) : Option Int :=
  let (sign, ds) := splitSign s.data
  if ds = [] || !ds.all isAsciiDigit then none
  else
    let v : Int := sign * (digitsToNat ds : Nat)
    if i64Min ≤ v && v ≤ i64Max then some v else none

/-- Split the longest ASCII-digit prefix off a char list. -/
def spanDigits (cs : List Char) : List Char × List Char :=
  match cs with
  | [] => ([], [])
  | c :: r =>
    if isAsciiDigit c then
      let (d, rest) := spanDigits r
      (c :: d, rest)
    else ([], cs)

/-- Acceptance of the exponent suffix of the Rust float grammar (possibly
absent; otherwise `e`/`E`, optional sign, one or more digits). -/
def f64ExpOk (cs : List Char) : Bool :=
  match cs with
  | [] => true
  | c :: r =>
    if c = 'e' || c = 'E' then
      let (_, ds) := splitSign r
      ds ≠ [] && ds.all isAsciiDigit
    else false

/-- Acceptance of the numeric part of the Rust float grammar:
digits, or digits-dot-digits with at least one digit overall, then an
optional exponent. -/
def f64NumberOk (cs : List Char) : Bool :=
  let (d1, r1) := spanDigits cs
  match r1 with
  | '.' :: r2 =>
    let (d2, r3) := spanDigits r2
    (d1 ≠ [] || d2 ≠ []) && f64ExpOk r3
  | _ => d1 ≠ [] && f64ExpOk r1

/-- Case-insensitive match of the special float words accepted by Rust. -/
def f64SpecialWord (cs : List Char) : Bool :=
  let l := cs.map Char.toLower
  l = "inf".data || l = "infinity".data || l = "nan".data

/-- Rust `s.parse::<f64>().is_ok()`: pure grammar acceptance. -/
def rustF64IsOk (s : String) : Bool :=
  match s.data with
  | [] => false
  | cs =>
    let (_, r) := splitSign cs
    f64SpecialWord r || f64NumberOk r

/-! ## The `f64` model -/

/-- Model of an `f64` value: an exact rational, or an IEEE special value.
Finite payloads are exact rationals rather than rounded doubles; no settled
claim depends on IEEE-754 rounding. -/
inductive F64 where
  | finite (q : ℚ)
  | inf
  | neginf
  | nan
  deriving DecidableEq, Repr

/-- Integer value of an exponent suffix (empty, or `e`/`E` sign digits). -/
def f64ExpVal (cs : List Char) : Int :=
  match cs with
  | [] => 0
  | _ :: r =>
    let (es, ed) := splitSign r
    es * (digitsToNat ed : Nat)

/-- Exact rational denoted by an accepted finite float literal
(digits, optional fraction, optional exponent, optional sign). -/
def f64LiteralVal (cs : List Char) : ℚ :=
  let (sign, r) := splitSign cs
  let (d1, r1) := spanDigits r
  match r1 with
  | '.' :: r2 =>
    let (d2, r3) := spanDigits r2
    let mant : ℚ := (digitsToNat d1 : ℚ) + (digitsToNat d2 : ℚ) / ((10 : ℚ) ^ d2.length)
    (sign : ℚ) * mant * (10 : ℚ) ^ f64ExpVal r3
  | _ => (sign : ℚ) * (digitsToNat d1 : ℚ) * (10 : ℚ) ^ f64ExpVal r1

/-- Value produced by Rust `s.parse::<f64>()` when it succeeds, in the `F64`
model (huge finite literals are kept exact instead of rounding to infinity). -/
def rustF64Val (s : String) : F64 :=
  let (sign, r) := splitSign s.data
  if f64SpecialWord r then
    if r.map Char.toLower = "nan".data then F64.nan
    else if sign = -1 then F64.neginf else F64.inf
  else F64.finite (f64LiteralVal s.data)

/-! ## Data model (`value.rs`, `map.rs`)

`ToonMap` wraps `indexmap::IndexMap<String, ToonValue>`: an insertion-ordered
map where inserting an existing key replaces the value in place.  It is
modelled as an association list together with the `mapInsert` operation. -/

/-- Model of `Number` (value.rs): 64-bit signed integer, float, or one of the
JavaScript-style special values. -/
inductive Number where
  | Integer (i : Int)
  | Float (f : F64)
  | Infinity
  | NegativeInfinity
  | NaN
  deriving DecidableEq, Repr

/-- Model of `ToonValue` (value.rs): the dynamic TOON value tree.  Objects
carry their entries in insertion order; `Date` carries an integer surrogate
for `chrono::DateTime<Utc>` and `BigInt` an exact `Int` (faithful, since
`num_bigint::BigInt` is arbitrary precision). -/
inductive Value where
  | Null
  | Bool (b : Bool)
  | Number (n : Number)
  | String (s : String)
  | Array (elems : List Value)
  | Object (entries : List (String × Value))
  | Table (headers : List String) (rows : List (List Value))
  | Date (d : Int)
  | BigInt (i : Int)

/-- Model of `IndexMap::insert`: replace in place if the key exists,
otherwise append at the end. -/
def mapInsert (m : List (String × Value)) (k : String) (v : Value) :
    List (String × Value) :=
  match m with
  | [] => [(k, v)]
  | (k1, v1) :: rest =>
    if k1 = k then (k1, v) :: rest else (k1, v1) :: mapInsert rest k v

/-- Model of `IndexMap::get`: first (only) value stored under a key. -/
def mapGet (m : List (String × Value)) (k : String) : Option Value :=
  match m with
  | [] => none
  | (k1, v1) :: rest => if k1 = k then some v1 else mapGet rest k

/-! ## Options (`options.rs`) -/

/-- Model of `Delimiter`. -/
inductive Delimiter where
  | Comma
  | Tab
  | Pipe
  deriving DecidableEq, Repr

/-- Rust `Delimiter::as_str` returns a one-character string; we return the
character. -/
def Delimiter.asChar : Delimiter → Char
  | .Comma => ','
  | .Tab => '\t'
  | .Pipe => '|'

/-- Model of `ToonOptions`. -/
structure ToonOptions where
  indent : Nat
  delimiter : Delimiter
  lengthMarker : Option Char
  pretty : Bool
  deriving DecidableEq, Repr

/-- Model of `ToonOptions::default()`. -/
def defaultOptions : ToonOptions :=
  { indent := 2, delimiter := .Comma, lengthMarker := none, pretty := false }

/-- Default options with the pipe delimiter selected. -/
def pipeOptions : ToonOptions := { defaultOptions with delimiter := .Pipe }

/-- Default options with the tab delimiter selected. -/
def tabOptions : ToonOptions := { defaultOptions with delimiter := .Tab }

/-! ## Serializer: pure helpers (`ser.rs`, `value.rs`) -/

/-- Rust `" ".repeat(n)`. -/
def indentStr (n : Nat) : String := String.mk (List.replicate n ' ')

/-- One-character string of the active delimiter (`Delimiter::as_str`). -/
def delimStr (d : Delimiter) : String := String.mk [d.asChar]

/-- Escape map applied inside quoted output, shared by
`Serializer::write_string` and `write_toon_value_quoted`. -/
def escapeChar (c : Char) : String :=
  if c = '"' then "\\\""
  else if c = '\\' then "\\\\"
  else if c = '\n' then "\\n"
  else if c = '\x0d' then "\\r"
  else if c = '\t' then "\\t"
  else if c = '\x08' then "\\b"
  else if c = '\x0c' then "\\f"
  else if c = nulChar then "\\0"
  else String.mk [c]

/-- Escape every character of a string. -/
def escapeString (s : String) : String := String.join (s.data.map escapeChar)

/-- Model of `Serializer::needs_quotes` (ser.rs:89): the quoting predicate of
the bare top-level string path.  Note that it hard-codes comma, tab and pipe
regardless of the configured delimiter. -/
def serializerNeedsQuotes (s : String) : Bool :=
  s.data.isEmpty
  || s.data.contains ':'
  || s.data.contains ','
  || s.data.contains '\n'
  || s.data.contains '\t'
  || s.data.contains '|'
  || s.data.contains '"'
  || s.data.contains '\\'
  || s.data.contains nulChar
  || s.data.head? = some ' '
  || s.data.getLast? = some ' '
  || s = "true"
  || s = "false"
  || s = "null"
  || rustF64IsOk s

/-- Model of `Serializer::write_string` (ser.rs:108). -/
def writeString (s : String) : String :=
  if serializerNeedsQuotes s then "\"" ++ escapeString s ++ "\"" else s

/-- Model of `needs_quotes_toon` (ser.rs:1262): the quoting predicate of the
value-writing path.  Sequential early returns are rendered as a
short-circuit disjunction in the same order and grouping as the source. -/
def needsQuotesToon (s : String) (options : ToonOptions) : Bool :=
  s.data.isEmpty
  || (s.data.head? = some ' ' || s.data.getLast? = some ' ')
  || (s.data.contains ':' || s.data.contains '"' || s.data.contains '\\'
      || s.data.contains '\n' || s.data.contains '\x0d' || s.data.contains '\t'
      || s.data.contains nulChar)
  || s.data.contains options.delimiter.asChar
  || (s = "true" || s = "false" || s = "null")
  || (rustF64IsOk s || (rustI64Parse s).isSome)
  || (match s.data with
      | '-' :: ' ' :: _ => true
      | _ => false)
  || (s.data.head? = some '[' && s.data.contains ']')
  || (s.data.head? = some lbrace && s.data.contains rbrace)

/-- Display surrogate for finite doubles.  Rust prints the shortest decimal
that round-trips the IEEE value; no settled claim depends on this rendering,
so the exact-rational payload is printed naively. -/
def f64FiniteDisplay (q : ℚ) : String :=
  if q.den = 1 then i64ToString q.num
  else i64ToString q.num ++ "/" ++ natToString q.den

/-- Rust `f64: Display` on the `F64` model (`inf`, `-inf`, `NaN` faithful). -/
def f64Display : F64 → String
  | .finite q => f64FiniteDisplay q
  | .inf => "inf"
  | .neginf => "-inf"
  | .nan => "NaN"

/-- Model of `impl Display for Number` (value.rs:259). -/
def numberToString : Number → String
  | .Integer i => i64ToString i
  | .Float f => f64Display f
  | .Infinity => "Infinity"
  | .NegativeInfinity => "-Infinity"
  | .NaN => "NaN"

/-- Surrogate for `chrono::DateTime::to_rfc3339` (external crate); no claim
depends on its output. -/
def dateToRfc3339 (d : Int) : String := i64ToString d

/-- Model of `is_primitive_value` (ser.rs:984). -/
def isPrimitiveValue : Value → Bool
  | .Null | .Bool _ | .Number _ | .String _ | .Date _ | .BigInt _ => true
  | .Array _ | .Object _ | .Table _ _ => false

/-- Keys of an object entry list, in insertion order. -/
def entryKeys (es : List (String × Value)) : List String := es.map Prod.fst

/-- Lexicographic comparison of char lists by code point.  UTF-8 encoding
preserves code-point order, so this is exactly Rust's byte-wise `String`
ordering. -/
def charListLe : List Char → List Char → Bool
  | [], _ => true
  | _ :: _, [] => false
  | a :: as, b :: bs =>
    if a.toNat < b.toNat then true
    else if b.toNat < a.toNat then false
    else charListLe as bs

/-- Rust's `String` ordering (byte-wise lexicographic). -/
def stringLe (a b : String) : Bool := charListLe a.data b.data

/-- Model of `Vec<String>::sort()`.  Rust uses a stable ascending sort; the
output of any stable sort is unique, so insertion sort is a faithful model. -/
def sortStrings (l : List String) : List String :=
  List.insertionSort (fun a b => stringLe a b = true) l

/-- Per-element loop of `can_be_tabular` (ser.rs:952): every element must be
an object whose sorted key list equals the header list and whose values are
all primitive; its row lists the values in header order with a defensive
`Null` for an absent key. -/
def tabRows (elements : List Value) (headers : List String) :
    Option (List (List Value)) :=
  match elements with
  | [] => some []
  | e :: rest =>
    match e with
    | .Object obj =>
      if sortStrings (entryKeys obj) = headers then
        if obj.all (fun p => isPrimitiveValue p.2) then
          match tabRows rest headers with
          | some rows => some ((headers.map fun k => (mapGet obj k).getD .Null) :: rows)
          | none => none
        else none
      else none
    | _ => none

/-- Model of `can_be_tabular` (ser.rs:928). -/
def canBeTabular (elements : List Value) :
    Option (List String × List (List Value)) :=
  match elements with
  | [] => none
  | first :: _ =>
    match first with
    | .Object obj =>
      if obj.all (fun p => isPrimitiveValue p.2) then
        let headers := sortStrings (entryKeys obj)
        match tabRows elements headers with
        | some rows => some (headers, rows)
        | none => none
      else none
    | _ => none

/-- Array length marker text (`[#3]` when a marker is configured). -/
def lenMarker (options : ToonOptions) (n : Nat) : String :=
  match options.lengthMarker with
  | some m => String.mk [m] ++ natToString n
  | none => natToString n

/-- Delimiter suffix shown inside the array header brackets. -/
def headerSuffix (d : Delimiter) : String :=
  match d with
  | .Comma => ""
  | .Tab => "    "
  | .Pipe => "|"

/-- Separator used between header names inside the brace list. -/
def headerJoin (d : Delimiter) : String :=
  match d with
  | .Comma => ","
  | .Tab => "    "
  | .Pipe => "|"

/-- Header line of a tabular array (ser.rs:1026), up to the colon. -/
def tabularHeader (headers : List String) (nrows : Nat) (options : ToonOptions) :
    String :=
  "[" ++ lenMarker options nrows ++ headerSuffix options.delimiter ++ "]"
    ++ String.mk [lbrace] ++ String.intercalate (headerJoin options.delimiter) headers
    ++ String.mk [rbrace] ++ ":"

/-! ## Serializer: the recursive writer (`ser.rs`)

The mutually recursive emitters are embedded with a fuel parameter bounding
the recursion depth; `none` means the fuel ran out, which never happens for
the fuel supplied by `rustToString` below.  Every mutual call passes the
decremented fuel. -/

mutual

/-- Model of `write_toon_value_quoted` (ser.rs:1195). -/
def writeToonValueQuoted : Nat → Value → ToonOptions → Option String
  | 0, _, _ => none
  | _ + 1, .Null, _ => some "null"
  | _ + 1, .Bool b, _ => some (if b then "true" else "false")
  | _ + 1, .Number n, _ => some (numberToString n)
  | _ + 1, .String s, options =>
    some (if needsQuotesToon s options then "\"" ++ escapeString s ++ "\"" else s)
  | n + 1, .Array arr, options => do
    let body ← writeDelimJoined n arr true options
    pure ("[" ++ body ++ "]")
  | n + 1, .Object obj, options => writeObjectEntries n obj true options 0
  | n + 1, .Table headers rows, options => writeTabularArray n headers rows options 0
  | _ + 1, .Date d, options =>
    let s := dateToRfc3339 d
    some (if needsQuotesToon s options then "\"" ++ s ++ "\"" else s)
  | _ + 1, .BigInt i, options =>
    let s := i64ToString i ++ "n"
    some (if needsQuotesToon s options then "\"" ++ s ++ "\"" else s)
  termination_by structural a0 a1 a2 => a0

/-- Delimiter-joined values, used by the inline-array writer, by table rows
and by the bracketed nested-array case of `write_toon_value_quoted`. -/
def writeDelimJoined : Nat → List Value → Bool → ToonOptions → Option String
  | 0, _, _, _ => none
  | _ + 1, [], _, _ => some ""
  | n + 1, v :: rest, first, options => do
    let cell ← writeToonValueQuoted n v options
    let tail ← writeDelimJoined n rest false options
    pure ((if first then "" else delimStr options.delimiter) ++ cell ++ tail)
  termination_by structural a0 a1 a2 a3 => a0

/-- Model of `write_tabular_array` (ser.rs:996). -/
def writeTabularArray :
    Nat → List String → List (List Value) → ToonOptions → Nat → Option String
  | 0, _, _, _, _ => none
  | n + 1, headers, rows, options, indentLevel => do
    let body ← writeTabularRows n rows options indentLevel
    pure (tabularHeader headers rows.length options ++ body)
  termination_by structural a0 a1 a2 a3 a4 => a0

/-- Row loop of `write_tabular_array`. -/
def writeTabularRows :
    Nat → List (List Value) → ToonOptions → Nat → Option String
  | 0, _, _, _ => none
  | _ + 1, [], _, _ => some ""
  | n + 1, row :: rest, options, indentLevel => do
    let cells ← writeDelimJoined n row true options
    let tail ← writeTabularRows n rest options indentLevel
    pure ("\n" ++ indentStr ((indentLevel + 1) * options.indent) ++ cells ++ tail)
  termination_by structural a0 a1 a2 a3 => a0

/-- Model of `write_inline_array` (ser.rs:1045). -/
def writeInlineArray : Nat → List Value → ToonOptions → Option String
  | 0, _, _ => none
  | n + 1, elements, options => do
    let body ← writeDelimJoined n elements true options
    pure ("[" ++ lenMarker options elements.length ++ headerSuffix options.delimiter
      ++ "]: " ++ body)
  termination_by structural a0 a1 a2 => a0

/-- Model of `write_list_array` (ser.rs:1072). -/
def writeListArray : Nat → List Value → ToonOptions → Nat → Option String
  | 0, _, _, _ => none
  | n + 1, elements, options, indentLevel => do
    let body ← writeListItems n elements options indentLevel
    pure ("[" ++ lenMarker options elements.length ++ "]:" ++ body)
  termination_by structural a0 a1 a2 a3 => a0

/-- Per-element loop of `write_list_array`: each entry on its own line with a
dash prefix; object entries put their first (key-sorted) field inline. -/
def writeListItems : Nat → List Value → ToonOptions → Nat → Option String
  | 0, _, _, _ => none
  | _ + 1, [], _, _ => some ""
  | n + 1, element :: rest, options, indentLevel => do
    let pre := "\n" ++ indentStr ((indentLevel + 1) * options.indent) ++ "- "
    let entry ←
      match element with
      | .Object obj =>
        match List.insertionSort (fun a b => stringLe a.1 b.1 = true) obj with
        | [] => some ""
        | (k, v) :: restFields => do
          let head ← writeToonValueQuoted n v options
          let tail ← writeListObjFields n restFields options indentLevel
          pure (k ++ ": " ++ head ++ tail)
      | _ => writeToonValueQuoted n element options
    let tail ← writeListItems n rest options indentLevel
    pure (pre ++ entry ++ tail)
  termination_by structural a0 a1 a2 a3 => a0

/-- Remaining-field loop of the object case of `write_list_array`. -/
def writeListObjFields :
    Nat → List (String × Value) → ToonOptions → Nat → Option String
  | 0, _, _, _ => none
  | _ + 1, [], _, _ => some ""
  | n + 1, (k, v) :: rest, options, indentLevel => do
    let cell ← writeToonValueQuoted n v options
    let tail ← writeListObjFields n rest options indentLevel
    pure ("\n" ++ indentStr ((indentLevel + 1) * options.indent) ++ "  "
      ++ k ++ ": " ++ cell ++ tail)
  termination_by structural a0 a1 a2 a3 => a0

/-- Model of `write_array_toon` (ser.rs:1122). -/
def writeArrayToon : Nat → List Value → ToonOptions → Nat → Option String
  | 0, _, _, _ => none
  | n + 1, arr, options, indentLevel =>
    if arr.isEmpty then some "[0]:"
    else
      match canBeTabular arr with
      | some (headers, rows) => writeTabularArray n headers rows options indentLevel
      | none =>
        if arr.all isPrimitiveValue then writeInlineArray n arr options
        else writeListArray n arr options indentLevel
  termination_by structural a0 a1 a2 a3 => a0

/-- Model of `write_object` (ser.rs:1145); the boolean marks the first entry
(Rust tracks the index `i`, used only as `i > 0`). -/
def writeObjectEntries :
    Nat → List (String × Value) → Bool → ToonOptions → Nat → Option String
  | 0, _, _, _, _ => none
  | _ + 1, [], _, _, _ => some ""
  | n + 1, (key, value) :: rest, first, options, indentLevel => do
    let sep := if first then "" else "\n"
    let ind :=
      if indentLevel > 0 then indentStr (indentLevel * options.indent)
      else if !first && options.pretty then indentStr (indentLevel * options.indent)
      else ""
    let field ←
      match value with
      | .Array arr => do
        let body ← writeArrayToon n arr options indentLevel
        pure (" " ++ body)
      | .Object obj => do
        let body ← writeObjectEntries n obj true options (indentLevel + 1)
        pure ("\n" ++ body)
      | .Table _ _ => do
        let body ← writeToonValueQuoted n value options
        pure ("\n" ++ indentStr ((indentLevel + 1) * options.indent) ++ body)
      | _ => do
        let body ← writeToonValueQuoted n value options
        pure (" " ++ body)
    let tail ← writeObjectEntries n rest false options indentLevel
    pure (sep ++ ind ++ key ++ ":" ++ field ++ tail)
  termination_by structural a0 a1 a2 a3 a4 => a0

/-- Model of `SeqSerializer::end` (ser.rs:350): the format triage performed
when a sequence finishes. -/
def seqSerializerEnd : Nat → List Value → ToonOptions → Nat → Option String
  | 0, _, _, _ => none
  | n + 1, elements, options, indentLevel =>
    if elements.isEmpty then some "[0]:"
    else
      match canBeTabular elements with
      | some (headers, rows) => writeTabularArray n headers rows options indentLevel
      | none =>
        if elements.all isPrimitiveValue then writeInlineArray n elements options
        else writeListArray n elements options indentLevel

end

/-! ## Serializer: value-level normalization (`ToonValueSerializer`)

Sequence and map elements are converted by `to_toon_value` (ser.rs:924)
before the format triage: this is `ToonValue::serialize` driving
`ToonValueSerializer`.  It is the identity except that special numbers
become `Float` specials, tables become arrays of objects, and dates/bigints
become strings. -/

/-- Fold a pair list into a map with `IndexMap::insert` semantics. -/
def insertAll (l : List (String × Value)) : List (String × Value) :=
  l.foldl (fun m p => mapInsert m p.1 p.2) []

/-- Row-to-object conversion used wherever a `Table` is normalized: each row
value is keyed by the header of the same index, extras dropped. -/
def rowsToObjects (headers : List String) (rows : List (List Value)) :
    List Value :=
  rows.map fun row => .Object (insertAll (headers.zip row))

mutual

/-- Model of `to_toon_value` (ser.rs:924) on an already-dynamic value:
`ToonValue::serialize` into `ToonValueSerializer`.  Fueled for
kernel-reducible recursion over the nested tree; `none` (fuel exhaustion)
never occurs for the fuels supplied below.  Rust assembles each table-row
object from the raw row values and converts while serializing; conversion
keeps keys and `mapInsert` is driven by keys alone, so converting the row
values first and assembling afterwards - done here for termination - yields
the same object. -/
def toToonValue : Nat → Value → Option Value
  | 0, _ => none
  | _ + 1, .Null => some .Null
  | _ + 1, .Bool b => some (.Bool b)
  | _ + 1, .Number (.Integer i) => some (.Number (.Integer i))
  | _ + 1, .Number (.Float f) => some (.Number (.Float f))
  | _ + 1, .Number .Infinity => some (.Number (.Float .inf))
  | _ + 1, .Number .NegativeInfinity => some (.Number (.Float .neginf))
  | _ + 1, .Number .NaN => some (.Number (.Float .nan))
  | _ + 1, .String s => some (.String s)
  | n + 1, .Array xs => do pure (.Array (← toToonValueList n xs))
  | n + 1, .Object es => do pure (.Object (insertAll (← toToonEntries n es)))
  | n + 1, .Table headers rows => do
    pure (.Array (rowsToObjects headers (← toToonRows n rows)))
  | _ + 1, .Date d => some (.String (dateToRfc3339 d))
  | _ + 1, .BigInt i => some (.String (i64ToString i ++ "n"))
  termination_by structural a0 a1 => a0

/-- Element-wise conversion of a value list. -/
def toToonValueList : Nat → List Value → Option (List Value)
  | 0, _ => none
  | _ + 1, [] => some []
  | n + 1, v :: r => do pure ((← toToonValue n v) :: (← toToonValueList n r))
  termination_by structural a0 a1 => a0

/-- Value-wise conversion of an entry list (keys unchanged). -/
def toToonEntries : Nat → List (String × Value) → Option (List (String × Value))
  | 0, _ => none
  | _ + 1, [] => some []
  | n + 1, (k, v) :: r => do pure ((k, ← toToonValue n v) :: (← toToonEntries n r))
  termination_by structural a0 a1 => a0

/-- Row-wise conversion of table rows. -/
def toToonRows : Nat → List (List Value) → Option (List (List Value))
  | 0, _ => none
  | _ + 1, [] => some []
  | n + 1, row :: r => do pure ((← toToonValueList n row) :: (← toToonRows n r))
  termination_by structural a0 a1 => a0

end

/-- Model of `to_string_with_options` (lib.rs:226) applied to a dynamic
`ToonValue`: the `Serialize` impl of `ToonValue` (value.rs:542) driving the
`Serializer` (ser.rs:131).  The fuel argument bounds recursion; `none`
means exhaustion, which the fuel chosen in `rustToString` prevents. -/
def rustToStringWith (fuel : Nat) (v : Value) (options : ToonOptions) :
    Option String :=
  match v with
  | .Null => some "null"
  | .Bool b => some (if b then "true" else "false")
  | .Number (.Integer i) => some (i64ToString i)
  | .Number (.Float f) => some (f64Display f)
  | .Number .Infinity => some (f64Display .inf)
  | .Number .NegativeInfinity => some (f64Display .neginf)
  | .Number .NaN => some (f64Display .nan)
  | .String s => some (writeString s)
  | .Array arr => do seqSerializerEnd fuel (← toToonValueList fuel arr) options 0
  | .Object es => do writeObjectEntries fuel (← toToonEntries fuel es) true options 0
  | .Table headers rows => do
    seqSerializerEnd fuel (← toToonValueList fuel (rowsToObjects headers rows)) options 0
  | .Date d => some (writeString (dateToRfc3339 d))
  | .BigInt i => some (writeString (i64ToString i ++ "n"))

mutual

/-- Executable size of a value tree, used only to compute writer fuel.  It
is defined by well-founded recursion, so concrete occurrences are evaluated
with its equation lemmas rather than by kernel reduction. -/
def valueSize : Value → Nat
  | .Null | .Bool _ | .Number _ | .String _ | .Date _ | .BigInt _ => 1
  | .Array xs => 1 + valueListSize xs
  | .Object es => 1 + entriesSize es
  | .Table _ rows => 1 + rowsSize rows

/-- Size of a value list. -/
def valueListSize : List Value → Nat
  | [] => 0
  | v :: r => 1 + valueSize v + valueListSize r

/-- Size of an entry list. -/
def entriesSize : List (String × Value) → Nat
  | [] => 0
  | (_, v) :: r => 1 + valueSize v + entriesSize r

/-- Size of a row list. -/
def rowsSize : List (List Value) → Nat
  | [] => 0
  | row :: r => 1 + valueListSize row + rowsSize r

end

/-- Fuel supplied to the writer: the total node count dominates the length
of every call chain, since each step descends into values or shortens a
list. -/
def writerFuel (v : Value) : Nat := valueSize v + 8

/-- Model of `to_string` (lib.rs:167): serialization with default options. -/
def rustToString (v : Value) : Option String :=
  rustToStringWith (writerFuel v) v defaultOptions

/-! ## Parser state (`de.rs`)

`Deserializer` keeps the input, a byte cursor, the 1-based line and column,
an indentation stack and the current line indentation.  The cursor and input
are modelled together as the remaining char list. -/

/-- Model of the `Deserializer` cursor state. -/
structure PState where
  rest : List Char
  line : Nat
  col : Nat
  indentStack : List Nat
  currentIndent : Nat
  deriving DecidableEq, Repr

/-- Model of `Error::syntax(line, column, msg)` (error.rs): a positioned
syntax error. -/
structure PError where
  line : Nat
  col : Nat
  msg : String
  deriving DecidableEq, Repr

/-- Model of `Deserializer::from_str` (de.rs:63). -/
def initState (s : String) : PState :=
  { rest := s.data, line := 1, col := 1, indentStack := [0], currentIndent := 0 }

/-- Model of `next_char` (de.rs:78), state part: consume one char and update
line/column. -/
def advance1 (st : PState) : PState :=
  match st.rest with
  | [] => st
  | c :: r =>
    if c = '\n' then { st with rest := r, line := st.line + 1, col := 1 }
    else { st with rest := r, col := st.col + 1 }

/-- Consuming a char from a nonempty input shortens the rest. -/
theorem advance1_length_lt (st : PState) (h : st.rest ≠ []) :
    (advance1 st).rest.length < st.rest.length := by
  match hr : st.rest with
  | [] => exact absurd hr h
  | c :: r =>
    simp only [advance1, hr]
    split <;> simp

/-- Consuming never lengthens the rest. -/
theorem advance1_length_le (st : PState) :
    (advance1 st).rest.length ≤ st.rest.length := by
  match hr : st.rest with
  | [] => simp [advance1, hr]
  | c :: r =>
    simp only [advance1, hr]
    split <;> simp

/-- Consume `n` characters. -/
def advanceN : PState → Nat → PState
  | st, 0 => st
  | st, n + 1 => advanceN (advance1 st) n

/-- Consuming loop of `skip_whitespace` (de.rs:93); the skipped characters
are never newlines, so only the column advances. -/
def skipWsAux : List Char → Nat → Nat → List Char × Nat × Nat
  | [], l, k => ([], l, k)
  | c :: r, l, k =>
    if rustIsWhitespace c && c ≠ '\n' then skipWsAux r l (k + 1) else (c :: r, l, k)

/-- Model of `skip_whitespace` (de.rs:93): skip Unicode whitespace except
newlines. -/
def skipWhitespace (st : PState) : PState :=
  match skipWsAux st.rest st.line st.col with
  | (r, l, k) => { st with rest := r, line := l, col := k }

/-- Consuming loop of `skip_whitespace_same_line` (de.rs:142). -/
def skipWsSameLineAux : List Char → Nat → Nat → List Char × Nat × Nat
  | [], l, k => ([], l, k)
  | c :: r, l, k =>
    if c = ' ' || c = '\t' then skipWsSameLineAux r l (k + 1) else (c :: r, l, k)

/-- Model of `skip_whitespace_same_line` (de.rs:142): skip spaces and tabs. -/
def skipWsSameLine (st : PState) : PState :=
  match skipWsSameLineAux st.rest st.line st.col with
  | (r, l, k) => { st with rest := r, line := l, col := k }

/-- Model of `detect_indent_level` (de.rs:110): leading spaces of the current
line, counted without consuming. -/
def detectIndentLevel (st : PState) : Nat :=
  (st.rest.takeWhile fun c => c = ' ').length

/-- Model of `push_indent` (de.rs:128); the stack top is the list head. -/
def pushIndent (st : PState) (level : Nat) : PState :=
  { st with indentStack := level :: st.indentStack }

/-- Model of `pop_indent` (de.rs:133): pops unless only the base level is
left; callers ignore the popped value. -/
def popIndent (st : PState) : PState :=
  if st.indentStack.length > 1 then { st with indentStack := st.indentStack.tail }
  else st

/-! ## Parser: strings, numbers, literals (`de.rs`) -/

/-- Line/column update for one consumed character. -/
def bumpPos (l k : Nat) (c : Char) : Nat × Nat :=
  if c = '\n' then (l + 1, 1) else (l, k + 1)

/-- Message of a malformed `\u` escape. -/
def hexMsg : String := "Invalid unicode escape sequence (expected 4 hex digits)"

/-- Loop of the quoted branch of `parse_string` (de.rs:153), with the escape
table of the source; the four hex digits of a `\u` escape are consumed
before being checked, as in the source, so error positions follow the
consumed char. -/
def quotedAux : List Char → Nat → Nat → List Char →
    Except PError (String × List Char × Nat × Nat)
  | [], l, k, _ => .error ⟨l, k, "Unterminated string"⟩
  | c :: r, l, k, acc =>
    let (l1, k1) := bumpPos l k c
    if c = '"' then .ok (String.mk acc.reverse, r, l1, k1)
    else if c = '\\' then
      match r with
      | [] => .error ⟨l1, k1, "Unexpected end of input in string"⟩
      | e :: r2 =>
        let (l2, k2) := bumpPos l1 k1 e
        if e = '\\' then quotedAux r2 l2 k2 ('\\' :: acc)
        else if e = '"' then quotedAux r2 l2 k2 ('"' :: acc)
        else if e = 'n' then quotedAux r2 l2 k2 ('\n' :: acc)
        else if e = 'r' then quotedAux r2 l2 k2 ('\x0d' :: acc)
        else if e = 't' then quotedAux r2 l2 k2 ('\t' :: acc)
        else if e = 'b' then quotedAux r2 l2 k2 ('\x08' :: acc)
        else if e = 'f' then quotedAux r2 l2 k2 ('\x0c' :: acc)
        else if e = '0' then quotedAux r2 l2 k2 (nulChar :: acc)
        else if e = 'u' then
          (match r2 with
          | [] => .error ⟨l2, k2, hexMsg⟩
          | h1 :: r3 =>
            let (l3, k3) := bumpPos l2 k2 h1
            if !isAsciiHexdigit h1 then .error ⟨l3, k3, hexMsg⟩
            else
              match r3 with
              | [] => .error ⟨l3, k3, hexMsg⟩
              | h2 :: r4 =>
                let (l4, k4) := bumpPos l3 k3 h2
                if !isAsciiHexdigit h2 then .error ⟨l4, k4, hexMsg⟩
                else
                  match r4 with
                  | [] => .error ⟨l4, k4, hexMsg⟩
                  | h3 :: r5 =>
                    let (l5, k5) := bumpPos l4 k4 h3
                    if !isAsciiHexdigit h3 then .error ⟨l5, k5, hexMsg⟩
                    else
                      match r5 with
                      | [] => .error ⟨l5, k5, hexMsg⟩
                      | h4 :: r6 =>
                        let (l6, k6) := bumpPos l5 k5 h4
                        if !isAsciiHexdigit h4 then .error ⟨l6, k6, hexMsg⟩
                        else
                          let cp :=
                            ((hexDigitVal h1 * 16 + hexDigitVal h2) * 16 +
                              hexDigitVal h3) * 16 + hexDigitVal h4
                          if 0xd800 ≤ cp && cp ≤ 0xdfff then
                            .error ⟨l6, k6, "Invalid unicode code point"⟩
                          else quotedAux r6 l6 k6 (Char.ofNat cp :: acc))
        else quotedAux r2 l2 k2 (e :: '\\' :: acc)
    else quotedAux r l1 k1 (c :: acc)

/-- Quoted branch of `parse_string`, lifted back to the cursor state. -/
def parseQuotedString (st : PState) (acc : List Char) :
    Except PError (String × PState) :=
  match quotedAux st.rest st.line st.col acc with
  | .error e => .error e
  | .ok (s, r, l, k) => .ok (s, { st with rest := r, line := l, col := k })

/-- Terminator set of the unquoted branch of `parse_string` (de.rs:224). -/
def unquotedTerminator (c : Char) : Bool :=
  c = ':' || c = ',' || c = '\n' || c = '\t' || c = '|' || c = ']' || c = rbrace

/-- Consuming loop of the unquoted branch; the consumed characters are never
newlines (a newline terminates the run), so only the column advances. -/
def unquotedSpanAux : List Char → Nat → Nat → List Char × List Char × Nat × Nat
  | [], l, k => ([], [], l, k)
  | c :: r, l, k =>
    if unquotedTerminator c then ([], c :: r, l, k)
    else
      match unquotedSpanAux r l (k + 1) with
      | (consumed, rest, l2, k2) => (c :: consumed, rest, l2, k2)

/-- Consumed raw chars of the unquoted branch and the state after the loop. -/
def parseUnquotedSpan (st : PState) : List Char × PState :=
  match unquotedSpanAux st.rest st.line st.col with
  | (consumed, rest, l, k) => (consumed, { st with rest := rest, line := l, col := k })

/-- Model of `parse_string` (de.rs:152): quoted strings with escapes, or an
unquoted run up to a terminator, trimmed; consuming nothing is an error. -/
def parseString (st : PState) : Except PError (String × PState) :=
  if st.rest.head? = some '"' then parseQuotedString (advance1 st) []
  else
    let (consumed, st1) := parseUnquotedSpan st
    if consumed = [] then .error ⟨st.line, st.col, "Expected string"⟩
    else .ok (String.mk (rustTrim consumed), st1)

/-- Digit/decimal-point loop of `parse_number` (de.rs:254); digits and dots
are never newlines, so only the column advances.  Returns the consumed
lexeme chars, the rest, the updated position and the decimal-point flag. -/
def numberLoopAux : List Char → Nat → Nat → Bool →
    List Char × List Char × Nat × Nat × Bool
  | [], l, k, hd => ([], [], l, k, hd)
  | c :: r, l, k, hd =>
    if isAsciiDigit c then
      match numberLoopAux r l (k + 1) hd with
      | (ds, rest, l2, k2, hd2) => (c :: ds, rest, l2, k2, hd2)
    else if c = '.' && !hd then
      match numberLoopAux r l (k + 1) true with
      | (ds, rest, l2, k2, hd2) => (c :: ds, rest, l2, k2, hd2)
    else ([], c :: r, l, k, hd)

/-- Digit loop of `parse_number`, lifted to the cursor state. -/
def parseNumberLoop (st : PState) (hasDec : Bool) :
    List Char × PState × Bool :=
  match numberLoopAux st.rest st.line st.col hasDec with
  | (ds, rest, l, k, hd) => (ds, { st with rest := rest, line := l, col := k }, hd)

/-- Model of `parse_number` (de.rs:245): optional sign, digits with at most
one decimal point; the lexeme reparses as `f64` when a point was seen and as
`i64` otherwise. -/
def parseNumber (st : PState) : Except PError (Number × PState) :=
  let (sgn, st0) :=
    if st.rest.head? = some '-' then (['-'], advance1 st) else (([] : List Char), st)
  let (ds, st1, hasDec) := parseNumberLoop st0 false
  let lexeme := String.mk (sgn ++ ds)
  if hasDec then
    if rustF64IsOk lexeme then .ok (.Float (rustF64Val lexeme), st1)
    else .error ⟨st1.line, st1.col, "Invalid float"⟩
  else
    match rustI64Parse lexeme with
    | some i => .ok (.Integer i, st1)
    | none => .error ⟨st1.line, st1.col, "Invalid integer"⟩

/-- Model of `parse_bool` (de.rs:281): exact `true`/`false` prefix match. -/
def parseBool (st : PState) : Except PError (Bool × PState) :=
  if st.rest.take 4 = "true".data then .ok (true, advanceN st 4)
  else if st.rest.take 5 = "false".data then .ok (false, advanceN st 5)
  else .error ⟨st.line, st.col, "Expected boolean"⟩

/-- Model of `parse_null` (de.rs:300): exact `null` prefix match. -/
def parseNull (st : PState) : Except PError (Unit × PState) :=
  if st.rest.take 4 = "null".data then .ok ((), advanceN st 4)
  else .error ⟨st.line, st.col, "Expected null"⟩

/-- Byte scan of the current line for a colon (de.rs:746): stops at the next
newline; quotes are NOT respected.  ASCII bytes never occur inside multi-byte
UTF-8 sequences, so the byte scan equals this char scan. -/
def findColonOnLine (cs : List Char) : Bool :=
  match cs with
  | [] => false
  | c :: r => if c = ':' then true else if c = '\n' then false else findColonOnLine r

/-- Literal coercion chain shared by the unquoted-scalar fallbacks of
`parse_primitive_value` (de.rs:701) and `parse_value` (de.rs:763):
`true`, `false`, `null`, then `i64`, then `f64`, else keep the string. -/
def literalCoerce (s : String) : Value :=
  if s = "true" then .Bool true
  else if s = "false" then .Bool false
  else if s = "null" then .Null
  else
    match rustI64Parse s with
    | some n => .Number (.Integer n)
    | none => if rustF64IsOk s then .Number (.Float (rustF64Val s)) else .String s

/-- Model of `parse_primitive_value` (de.rs:687). -/
def parsePrimitiveValue (st : PState) : Except PError (Value × PState) :=
  let st1 := skipWhitespace st
  let p := st1.rest.head?
  if p = some '"' then
    match parseString st1 with
    | .error e => .error e
    | .ok (s, st2) => .ok (.String s, st2)
  else if p = some 't' || p = some 'f' then
    match parseBool st1 with
    | .error e => .error e
    | .ok (b, st2) => .ok (.Bool b, st2)
  else if p = some 'n' then
    match parseNull st1 with
    | .error e => .error e
    | .ok (_, st2) => .ok (.Null, st2)
  else if (match p with | some c => isAsciiDigit c || c = '-' | none => false) then
    match parseNumber st1 with
    | .error e => .error e
    | .ok (num, st2) => .ok (.Number num, st2)
  else
    match parseString st1 with
    | .error e => .error e
    | .ok (s, st2) => .ok (literalCoerce s, st2)

/-- Delimiter skip used between inline/table cells (de.rs:406, de.rs:522):
consume the active delimiter char if present. -/
def skipDelimiter (delim : Delimiter) (st : PState) : PState :=
  if st.rest.head? = some delim.asChar then advance1 st else st

/-- Pre-cell state (de.rs:406, de.rs:522): the delimiter and whitespace are
skipped before every cell but the first. -/
def cellStart (first : Bool) (delim : Delimiter) (st : PState) : PState :=
  if first then st else skipWhitespace (skipDelimiter delim st)

/-- Newline consumption before a table or list row (de.rs:506, de.rs:436). -/
def rowNlSkip (st : PState) : PState :=
  if st.rest.head? = some '\n' then advance1 st else st

/-- Cell loop of a table row (de.rs:520): one primitive per header, the
delimiter and whitespace skipped before every cell but the first. -/
def parseRowCells (headers : List String) (first : Bool) (delim : Delimiter)
    (st : PState) : Except PError (List Value × PState) :=
  match headers with
  | [] => .ok ([], st)
  | _ :: hs =>
    let st1 := cellStart first delim st
    match parsePrimitiveValue st1 with
    | .error e => .error e
    | .ok (v, st2) =>
      match parseRowCells hs false delim st2 with
      | .error e => .error e
      | .ok (vs, st3) => .ok (v :: vs, st3)

/-- Row loop of `parse_table` (de.rs:506): up to the declared number of rows,
stopping silently at end of input. -/
def parseTableRows (count : Nat) (headers : List String) (delim : Delimiter)
    (st : PState) : Except PError (List (List Value) × PState) :=
  match count with
  | 0 => .ok ([], st)
  | n + 1 =>
    let st2 := skipWhitespace (rowNlSkip st)
    if st2.rest.isEmpty then .ok ([], st2)
    else
      match parseRowCells headers true delim st2 with
      | .error e => .error e
      | .ok (row, st3) =>
        match parseTableRows n headers delim st3 with
        | .error e => .error e
        | .ok (rows, st4) => .ok (row :: rows, st4)

/-- Fuel-exhaustion marker; never reached for the fuels supplied below. -/
def fuelError (st : PState) : PError := ⟨st.line, st.col, "fuel exhausted"⟩

/-- Header loop of `parse_table` (de.rs:482): parse comma-separated header
names until a closing brace or end of input.  The loop is given fuel as a
termination device; every iteration consumes at least one character
(`parse_string` fails when it consumes nothing), so the fuel
`rest.length + 1` supplied by `parseTable` can never run out. -/
def parseTableHeaders (fuel : Nat) (st : PState) :
    Except PError (List String × PState) :=
  match fuel with
  | 0 => .error (fuelError st)
  | n + 1 =>
    if st.rest.isEmpty || st.rest.head? = some rbrace then .ok ([], st)
    else
      match parseString st with
      | .error e => .error e
      | .ok (h, st1) =>
        if st1.rest.head? = some ',' then
          match parseTableHeaders n (advance1 st1) with
          | .error e => .error e
          | .ok (hs, st2) => .ok (h :: hs, st2)
        else .ok ([h], st1)

/-- Model of `parse_table` (de.rs:473): brace-delimited headers, a colon,
then up to `declaredLength` rows. -/
def parseTable (declaredLength : Nat) (delim : Delimiter) (st : PState) :
    Except PError (Value × PState) :=
  if st.rest.head? ≠ some lbrace then
    .error ⟨st.line, st.col, "Expected open brace"⟩
  else
    let st1 := advance1 st
    match parseTableHeaders (st1.rest.length + 1) st1 with
    | .error e => .error e
    | .ok (headers, st2) =>
      if st2.rest.head? ≠ some rbrace then
        .error ⟨st2.line, st2.col, "Expected close brace"⟩
      else
        let st3 := advance1 st2
        if st3.rest.head? ≠ some ':' then
          .error ⟨st3.line, st3.col, "Expected colon"⟩
        else
          match parseTableRows declaredLength headers delim (advance1 st3) with
          | .error e => .error e
          | .ok (rows, st5) => .ok (.Table headers rows, st5)

/-- Element loop of `parse_inline_array` (de.rs:397): a fixed number of
primitives, the delimiter and whitespace skipped before all but the first. -/
def parseInlineElems (count : Nat) (first : Bool) (delim : Delimiter)
    (st : PState) : Except PError (List Value × PState) :=
  match count with
  | 0 => .ok ([], st)
  | n + 1 =>
    let st1 := cellStart first delim st
    match parsePrimitiveValue st1 with
    | .error e => .error e
    | .ok (v, st2) =>
      match parseInlineElems n false delim st2 with
      | .error e => .error e
      | .ok (vs, st3) => .ok (v :: vs, st3)

/-- Digit-run consumer of the array-length field (de.rs:331); digits are not
newlines, so only the column advances. -/
def spanDigitsAux : List Char → Nat → Nat → List Char × List Char × Nat × Nat
  | [], l, k => ([], [], l, k)
  | c :: r, l, k =>
    if isAsciiDigit c then
      match spanDigitsAux r l (k + 1) with
      | (ds, rest, l2, k2) => (c :: ds, rest, l2, k2)
    else ([], c :: r, l, k)

/-- Digit-run consumer, lifted to the cursor state. -/
def spanDigitsState (st : PState) : List Char × PState :=
  match spanDigitsAux st.rest st.line st.col with
  | (ds, rest, l, k) => (ds, { st with rest := rest, line := l, col := k })

/-- Space-run consumer of the tab-delimiter indicator (de.rs:350). -/
def spanSpacesAux : List Char → Nat → Nat → Nat × List Char × Nat × Nat
  | [], l, k => (0, [], l, k)
  | c :: r, l, k =>
    if c = ' ' then
      match spanSpacesAux r l (k + 1) with
      | (n, rest, l2, k2) => (n + 1, rest, l2, k2)
    else (0, c :: r, l, k)

/-- Space-run consumer, lifted to the cursor state. -/
def spanSpacesState (st : PState) : Nat × PState :=
  match spanSpacesAux st.rest st.line st.col with
  | (n, rest, l, k) => (n, { st with rest := rest, line := l, col := k })

/-- Optional length-marker skip of the array header (de.rs:327). -/
def arrayMarkerSkip (st1 : PState) : PState :=
  if st1.rest.head? = some '#' then advance1 st1 else st1

/-- Delimiter detection of the array header (de.rs:344): a pipe, at least
four spaces (the tab expansion), or the default comma with a position-only
restore of the cursor. -/
def arrayDelimProbe (st3 : PState) : Delimiter × PState :=
  if st3.rest.head? = some '|' then (Delimiter.Pipe, advance1 st3)
  else
    let (nsp, stSp) := spanSpacesState st3
    if nsp ≥ 4 then (Delimiter.Tab, stSp)
    else (Delimiter.Comma, { stSp with rest := st3.rest })

/-! ## Parser: the mutually recursive value grammar (`de.rs`)

The mutual functions take a fuel parameter bounding the recursion; every
mutual call decrements it, and the fuel supplied by `rustParse` is large
enough for any input (distinct fuel errors keep exhaustion observable). -/

mutual

/-- Model of `parse_value` (de.rs:718): top level dispatch on the next
significant character, with the ambiguous colon-scan case. -/
def parseValue : Nat → PState → Except PError (Value × PState)
  | 0, st => .error (fuelError st)
  | n + 1, st =>
    let st1 := skipWhitespace st
    match st1.rest.head? with
    | none => .ok (.Object [], st1)
    | some c =>
      if c = '[' then parseArray n st1
      else if c = '"' then
        match parseString st1 with
        | .error e => .error e
        | .ok (s, st2) => .ok (.String s, st2)
      else if c = 't' || c = 'f' then
        match parseBool st1 with
        | .error e => .error e
        | .ok (b, st2) => .ok (.Bool b, st2)
      else if c = 'n' then
        match parseNull st1 with
        | .error e => .error e
        | .ok (_, st2) => .ok (.Null, st2)
      else if isAsciiDigit c || c = '-' then
        match parseNumber st1 with
        | .error e => .error e
        | .ok (num, st2) => .ok (.Number num, st2)
      else if findColonOnLine st1.rest then parseObject n st1
      else
        match parseString st1 with
        | .error e => .error e
        | .ok (s, st2) => .ok (literalCoerce s, st2)
  termination_by structural a0 a1 => a0

/-- Model of `parse_object` (de.rs:553): empty-object prologue with
position restore, then the field loop under the pushed base indentation. -/
def parseObject : Nat → PState → Except PError (Value × PState)
  | 0, st => .error (fuelError st)
  | n + 1, st =>
    let base := st.currentIndent
    let stA := skipWsSameLine st
    if stA.rest.head? = some '\n' then
      let stB := advance1 stA
      let nextIndent := detectIndentLevel stB
      if base > 0 && nextIndent < base then .ok (.Object [], stA)
      else if base = 0 && nextIndent = 0 && !findColonOnLine stB.rest then
        .ok (.Object [], stA)
      else
        match parseObjectLoop n [] base (pushIndent stA base) with
        | .error e => .error e
        | .ok (map, stF) => .ok (.Object map, stF)
    else if stA.rest.isEmpty then .ok (.Object [], stA)
    else
      match parseObjectLoop n [] base (pushIndent stA base) with
      | .error e => .error e
      | .ok (map, stF) => .ok (.Object map, stF)
  termination_by structural a0 a1 => a0

/-- Line-start stage of the field loop of `parse_object` (de.rs:616):
newline consumption, indentation tracking, the dedent exit and the
end-of-input exit. -/
def parseObjectLoop :
    Nat → List (String × Value) → Nat → PState →
      Except PError (List (String × Value) × PState)
  | 0, _, _, st => .error (fuelError st)
  | n + 1, map, base, st =>
    let st1 := skipWsSameLine st
    if st1.rest.head? = some '\n' then
      let st2a := advance1 st1
      let st2 := { st2a with currentIndent := detectIndentLevel st2a }
      if base > 0 && st2.currentIndent < base then .ok (map, popIndent st2)
      else if st2.rest.head? = some '\n' then parseObjectLoop n map base st2
      else parseObjectField n map base st2
    else if st1.rest.isEmpty then .ok (map, popIndent st1)
    else parseObjectField n map base st1
  termination_by structural a0 a1 a2 a3 => a0

/-- Field stage of the loop of `parse_object` (de.rs:641): key, colon, then
an inline value or a nested value on the following lines. -/
def parseObjectField :
    Nat → List (String × Value) → Nat → PState →
      Except PError (List (String × Value) × PState)
  | 0, _, _, st => .error (fuelError st)
  | n + 1, map, base, st =>
    let s1 := skipWsSameLine st
    if s1.rest.isEmpty || s1.rest.head? = some '\n' then parseObjectLoop n map base s1
    else
      match parseString s1 with
      | .error e => .error e
      | .ok (key, s2) =>
        let s3 := skipWsSameLine s2
        if s3.rest.head? ≠ some ':' then
          .error ⟨s3.line, s3.col, "Expected colon after key"⟩
        else
          let s4 := skipWsSameLine (advance1 s3)
          if s4.rest.head? = some '\n' then
            let s5a := advance1 s4
            let s5 := { s5a with currentIndent := detectIndentLevel s5a }
            match parseValue n s5 with
            | .error e => .error e
            | .ok (v, s6) => parseObjectLoop n (mapInsert map key v) base (skipWsSameLine s6)
          else
            match parseValue n s4 with
            | .error e => .error e
            | .ok (v, s6) => parseObjectLoop n (mapInsert map key v) base (skipWsSameLine s6)
  termination_by structural a0 a1 a2 a3 => a0

/-- Model of `parse_array` (de.rs:311): bracketed header with optional
marker, decimal length and delimiter indicator, then table, empty, list or
inline body. -/
def parseArray : Nat → PState → Except PError (Value × PState)
  | 0, st => .error (fuelError st)
  | n + 1, st =>
    if st.rest.head? ≠ some '[' then .error ⟨st.line, st.col, "Expected open bracket"⟩
    else
      let st2 := arrayMarkerSkip (advance1 st)
      let (ds, st3) := spanDigitsState st2
      if ds.isEmpty || digitsToNat ds ≥ 2 ^ 64 then
        .error ⟨st3.line, st3.col, "Invalid array length"⟩
      else
        let len := digitsToNat ds
        let (delim, st4) := arrayDelimProbe st3
        if st4.rest.head? ≠ some ']' then
          .error ⟨st4.line, st4.col, "Expected close bracket"⟩
        else
          let st5 := advance1 st4
          if st5.rest.head? = some lbrace then parseTable len delim st5
          else if st5.rest.head? ≠ some ':' then
            .error ⟨st5.line, st5.col, "Expected colon"⟩
          else
            let st6 := advance1 st5
            if len = 0 then .ok (.Array [], st6)
            else
              let st7 := skipWhitespace st6
              if st7.rest.head? = some '\n' then
                match parseListElems n len st7 with
                | .error e => .error e
                | .ok (vs, st8) => .ok (.Array vs, st8)
              else
                match parseInlineElems len true delim st7 with
                | .error e => .error e
                | .ok (vs, st8) => .ok (.Array vs, st8)
  termination_by structural a0 a1 => a0

/-- Element loop of `parse_list_array` (de.rs:434): dash-space entries, each
a recursively parsed value. -/
def parseListElems : Nat → Nat → PState → Except PError (List Value × PState)
  | 0, _, st => .error (fuelError st)
  | n + 1, count, st =>
    match count with
    | 0 => .ok ([], st)
    | k + 1 =>
      let st1 := rowNlSkip st
      let st2 := { st1 with currentIndent := detectIndentLevel st1 }
      let st3 := skipWhitespace st2
      if st3.rest.head? ≠ some '-' then
        .error ⟨st3.line, st3.col, "Expected dash prefix in list format"⟩
      else
        let st4 := advance1 st3
        if st4.rest.head? ≠ some ' ' then
          .error ⟨st4.line, st4.col, "Expected space after dash"⟩
        else
          match parseValue n (advance1 st4) with
          | .error e => .error e
          | .ok (v, st5) =>
            match parseListElems n k st5 with
            | .error e => .error e
            | .ok (vs, st6) => .ok (v :: vs, st6)
  termination_by structural a0 a1 a2 => a0

end

/-! ## Parser: visitor normalization (`from_str::<ToonValue>`)

`ToonValue::deserialize` drives `deserialize_any` (de.rs:785) with
`ToonValueVisitor` (value.rs:601): parsed special numbers become `Float`
specials, tables become arrays of objects (extra row cells beyond the
headers are dropped), and dates/bigints become strings; arrays and objects
are rebuilt element-wise.  Rust assembles each table-row object from the raw
row values and then converts them while visiting; since conversion keeps
keys and `mapInsert` is driven by keys alone, converting the row values
first and assembling afterwards - as done here for termination - yields the
same object. -/

mutual

/-- Visitor pipeline of `deserialize_any` with `ToonValueVisitor`, fueled
for kernel-reducible recursion (the fuel supplied by `rustParse` always
suffices).  As with `toToonValue`, table-row values are converted before the
row objects are assembled; the result is the same since keys drive
`mapInsert` and are unchanged. -/
def devisit : Nat → Value → Option Value
  | 0, _ => none
  | _ + 1, .Null => some .Null
  | _ + 1, .Bool b => some (.Bool b)
  | _ + 1, .Number (.Integer i) => some (.Number (.Integer i))
  | _ + 1, .Number (.Float f) => some (.Number (.Float f))
  | _ + 1, .Number .Infinity => some (.Number (.Float .inf))
  | _ + 1, .Number .NegativeInfinity => some (.Number (.Float .neginf))
  | _ + 1, .Number .NaN => some (.Number (.Float .nan))
  | _ + 1, .String s => some (.String s)
  | n + 1, .Array xs => do pure (.Array (← devisitList n xs))
  | n + 1, .Object es => do pure (.Object (insertAll (← devisitEntries n es)))
  | n + 1, .Table headers rows => do
    pure (.Array (rowsToObjects headers (← devisitRows n rows)))
  | _ + 1, .Date d => some (.String (dateToRfc3339 d))
  | _ + 1, .BigInt i => some (.String (i64ToString i ++ "n"))
  termination_by structural a0 a1 => a0

/-- Element-wise visit of a value list. -/
def devisitList : Nat → List Value → Option (List Value)
  | 0, _ => none
  | _ + 1, [] => some []
  | n + 1, v :: r => do pure ((← devisit n v) :: (← devisitList n r))
  termination_by structural a0 a1 => a0

/-- Value-wise visit of an entry list (keys unchanged). -/
def devisitEntries : Nat → List (String × Value) → Option (List (String × Value))
  | 0, _ => none
  | _ + 1, [] => some []
  | n + 1, (k, v) :: r => do pure ((k, ← devisit n v) :: (← devisitEntries n r))
  termination_by structural a0 a1 => a0

/-- Row-wise visit of table rows. -/
def devisitRows : Nat → List (List Value) → Option (List (List Value))
  | 0, _ => none
  | _ + 1, [] => some []
  | n + 1, row :: r => do pure ((← devisitList n row) :: (← devisitRows n r))
  termination_by structural a0 a1 => a0

end

/-- Fuel supplied to the parser: generous in the input length (the call
depth is bounded by a small multiple of the characters consumed, and the
size of the parsed tree by the input length). -/
def parserFuel (s : String) : Nat := 4 * s.length + 64

/-- Model of `from_str::<ToonValue>` (lib.rs:332): parse a value and run the
visitor normalization.  Trailing input after the parsed value is ignored,
as in the source. -/
def rustParse (s : String) : Except PError Value :=
  match parseValue (parserFuel s) (initState s) with
  | .error e => .error e
  | .ok (v, _) =>
    match devisit (parserFuel s) v with
    | some w => .ok w
    | none => .error ⟨0, 0, "fuel exhausted"⟩

/-! ## Unsigned 64-bit conversion (`ser.rs`, `value.rs`) -/

/-- Rust `i64::MAX as u64`. -/
def i64MaxNat : Nat := 9223372036854775807

/-- Model of `ToonValueSerializer::serialize_u64` (ser.rs:652). -/
def serializeU64 (v : Nat) : Value :=
  if v ≤ i64MaxNat then .Number (.Integer (Int.ofNat v))
  else .Number (.Float (.finite (v : ℚ)))

/-- Model of `ToonValueVisitor::visit_u64` (value.rs:618). -/
def visitU64 (v : Nat) : Value :=
  if v ≤ i64MaxNat then .Number (.Integer (Int.ofNat v))
  else .Number (.Float (.finite (v : ℚ)))

/-! ## Claim theorems -/

/-- C10: converting a `u64` above `i64::MAX` to a `ToonValue` produces a
`Number::Float` (routed through floating point), while every `u64` up to
`i64::MAX` produces `Number::Integer`, on both the `serialize_u64` and the
`visit_u64` paths. -/
theorem c10_u64_routing (v : Nat) (hv : v < 2 ^ 64) :
    (i64MaxNat < v →
      serializeU64 v = .Number (.Float (.finite (v : ℚ))) ∧
      visitU64 v = .Number (.Float (.finite (v : ℚ)))) ∧
    (v ≤ i64MaxNat →
      serializeU64 v = .Number (.Integer (Int.ofNat v)) ∧
      visitU64 v = .Number (.Integer (Int.ofNat v))) := by
  constructor
  · intro h
    have : ¬ v ≤ i64MaxNat := by omega
    simp [serializeU64, visitU64, this]
  · intro h
    simp [serializeU64, visitU64, h]

/-- Witness for C10 at the first value above `i64::MAX` and at 5. -/
theorem c10_u64_routing_witness :
    serializeU64 9223372036854775808 =
      .Number (.Float (.finite (9223372036854775808 : ℚ))) ∧
    serializeU64 5 = .Number (.Integer 5) := by
  refine ⟨((c10_u64_routing 9223372036854775808 (by norm_num)).1
    (by simp [i64MaxNat])).1, ?_⟩
  exact ((c10_u64_routing 5 (by norm_num)).2 (by simp [i64MaxNat])).1

/-- C2 counterexample: serializing `Number::Infinity` with default options
emits the text `inf` (Rust float formatting), not the literal `null` the
claim states; the same at an object value position. -/
theorem c2_counterexample :
    rustToString (.Number .Infinity) = some "inf" ∧
    rustToString (.Object [("a", .Number .Infinity)]) = some "a: inf" ∧
    "inf" ≠ "null" := by
  refine ⟨rfl, ?_, by decide⟩
  simp only [rustToString, writerFuel, valueSize, entriesSize]
  rfl

/-- C2 (amended): the special numbers never serialize to `null`.  At top
level `serialize_f64` prints Rust float text (`inf`, `-inf`, `NaN`); in
value positions the `ToonValueSerializer` normalization first turns them
into `Float` specials, which display the same way; and the `Number` display
used by `write_toon_value_quoted` renders an un-normalized special as
`Infinity`/`-Infinity`/`NaN`.  No preservation option exists. -/
theorem c2_special_floats_amended :
    rustToString (.Number .Infinity) = some "inf" ∧
    rustToString (.Number .NegativeInfinity) = some "-inf" ∧
    rustToString (.Number .NaN) = some "NaN" ∧
    rustToString (.Object [("a", .Number .Infinity)]) = some "a: inf" ∧
    rustToString (.Object [("b", .Number .NegativeInfinity)]) = some "b: -inf" ∧
    rustToString (.Object [("c", .Number .NaN)]) = some "c: NaN" ∧
    (∀ (fuel : Nat) (options : ToonOptions),
      writeToonValueQuoted (fuel + 1) (.Number .Infinity) options = some "Infinity" ∧
      writeToonValueQuoted (fuel + 1) (.Number .NegativeInfinity) options =
        some "-Infinity" ∧
      writeToonValueQuoted (fuel + 1) (.Number .NaN) options = some "NaN") := by
  refine ⟨rfl, rfl, rfl, ?_, ?_, ?_, fun fuel options => ⟨?_, ?_, ?_⟩⟩ <;>
    first
    | (simp only [rustToString, writerFuel, valueSize, entriesSize]
       rfl)
    | simp [writeToonValueQuoted, numberToString]

/-! ## Quoting: the specification-side predicate (C5, C3) -/

/-- Specification-side quoting condition, written as the disjunction listed
in the spec: empty; leading/trailing space; the control characters; the
currently active delimiter; a reserved word; a float or integer literal; a
leading dash-space; or a structural-token shape. -/
def specQuoteProp (s : String) (options : ToonOptions) : Prop :=
  s.data = []
  ∨ (s.data.head? = some ' ' ∨ s.data.getLast? = some ' ')
  ∨ (':' ∈ s.data ∨ '"' ∈ s.data ∨ '\\' ∈ s.data ∨ '\n' ∈ s.data ∨
      '\x0d' ∈ s.data ∨ '\t' ∈ s.data ∨ nulChar ∈ s.data)
  ∨ options.delimiter.asChar ∈ s.data
  ∨ (s = "true" ∨ s = "false" ∨ s = "null")
  ∨ (rustF64IsOk s = true ∨ (rustI64Parse s).isSome = true)
  ∨ s.data.take 2 = ['-', ' ']
  ∨ (s.data.head? = some '[' ∧ ']' ∈ s.data)
  ∨ (s.data.head? = some lbrace ∧ rbrace ∈ s.data)

instance specQuoteProp.decidable (s : String) (options : ToonOptions) :
    Decidable (specQuoteProp s options) := by
  unfold specQuoteProp
  infer_instance

/-- The leading dash-space test of `needs_quotes_toon`, as a decidable
prefix condition. -/
theorem dashSpace_match_iff (cs : List Char) :
    ((match cs with
      | '-' :: ' ' :: _ => true
      | _ => false) = true) ↔ cs.take 2 = ['-', ' '] := by
  match cs with
  | [] => simp
  | [c] => simp
  | c1 :: c2 :: r =>
    constructor
    · intro h
      split at h
      · next heq =>
        injection heq with h1 h2
        injection h2 with h2 h3
        simp_all
      · cases h
    · intro h
      simp only [List.take, List.cons.injEq] at h
      obtain ⟨h1, h2, -⟩ := h
      subst h1
      subst h2
      rfl

/-- Shared bridge: the writer quoting predicate `needs_quotes_toon` holds
exactly when the spec-side disjunction does. -/
theorem needsQuotesToon_iff_spec (s : String) (options : ToonOptions) :
    needsQuotesToon s options = true ↔ specQuoteProp s options := by
  simp only [needsQuotesToon, specQuoteProp, Bool.or_eq_true, Bool.and_eq_true,
    decide_eq_true_eq, List.isEmpty_eq_true, List.contains, List.elem_eq_mem,
    dashSpace_match_iff, or_assoc]

/-- C5: the Writer quoting predicate `needs_quotes_toon` quotes a string
exactly when one of the spec-listed conditions holds (empty; leading or
trailing space; a control character among colon, double quote, backslash,
newline, carriage return, tab, NUL; the currently active delimiter - an
inactive one never triggers this condition; a reserved word; a float or
integer literal; a leading dash-space; a bracket or brace structural-token
shape), and when none holds the writer emits the string unquoted. -/
theorem c5_quoting_predicate_exact (s : String) (options : ToonOptions) :
    (needsQuotesToon s options = true ↔ specQuoteProp s options) ∧
    (¬ specQuoteProp s options →
      ∀ fuel : Nat, writeToonValueQuoted (fuel + 1) (.String s) options = some s) := by
  refine ⟨needsQuotesToon_iff_spec s options, fun h fuel => ?_⟩
  have hq : needsQuotesToon s options = false := by
    cases hb : needsQuotesToon s options
    · rfl
    · exact absurd ((needsQuotesToon_iff_spec s options).mp hb) h
  simp [writeToonValueQuoted, hq]

/-- Witness for C5 at a quoted and an unquoted concrete string. -/
theorem c5_quoting_predicate_exact_witness :
    (needsQuotesToon "a:b" defaultOptions = true ↔ specQuoteProp "a:b" defaultOptions) ∧
    (¬ specQuoteProp "hello" defaultOptions ∧
      writeToonValueQuoted 1 (.String "hello") defaultOptions = some "hello") := by
  refine ⟨(c5_quoting_predicate_exact "a:b" defaultOptions).1, by decide, ?_⟩
  exact (c5_quoting_predicate_exact "hello" defaultOptions).2 (by decide) 0

/-- C3 counterexample: a bare top-level string containing a comma is quoted
even under the Pipe delimiter, because `Serializer::needs_quotes` hard-codes
the comma; the claim promised it stays unquoted on every path. -/
theorem c3_counterexample :
    rustToStringWith (writerFuel (.String "hello,world")) (.String "hello,world")
      pipeOptions = some "\"hello,world\"" ∧
    some "\"hello,world\"" ≠ some "hello,world" := by
  constructor
  · rfl
  · decide

/-- C3 (amended): on the value-writing path (`write_toon_value_quoted` via
`needs_quotes_toon`), a string containing a comma that meets no other
quoting condition is emitted unquoted under the Pipe and Tab delimiters -
the inactive comma never forces quoting there; the bare top-level string
path (`Serializer::needs_quotes`) quotes the comma regardless of options. -/
theorem c3_delimiter_isolation_amended (fuel : Nat) (s : String)
    (hc : ',' ∈ s.data) :
    (¬ specQuoteProp s pipeOptions →
      needsQuotesToon s pipeOptions = false ∧
      writeToonValueQuoted (fuel + 1) (.String s) pipeOptions = some s) ∧
    (¬ specQuoteProp s tabOptions →
      needsQuotesToon s tabOptions = false ∧
      writeToonValueQuoted (fuel + 1) (.String s) tabOptions = some s) := by
  constructor
  · intro h
    have hq : needsQuotesToon s pipeOptions = false := by
      cases hb : needsQuotesToon s pipeOptions
      · rfl
      · exact absurd ((needsQuotesToon_iff_spec s pipeOptions).mp hb) h
    exact ⟨hq, by simp [writeToonValueQuoted, hq]⟩
  · intro h
    have hq : needsQuotesToon s tabOptions = false := by
      cases hb : needsQuotesToon s tabOptions
      · rfl
      · exact absurd ((needsQuotesToon_iff_spec s tabOptions).mp hb) h
    exact ⟨hq, by simp [writeToonValueQuoted, hq]⟩

/-- Witness for C3 (amended) at the spec scenario string. -/
theorem c3_delimiter_isolation_amended_witness :
    (',' ∈ "hello,world".data) ∧
    needsQuotesToon "hello,world" pipeOptions = false ∧
    writeToonValueQuoted 1 (.String "hello,world") pipeOptions =
      some "hello,world" := by
  refine ⟨by decide, ?_⟩
  exact (c3_delimiter_isolation_amended 0 "hello,world" (by decide)).1 (by decide)

/-- C7 counterexample: the unquoted branch of `parse_string`, fed a space
followed by a comma, succeeds with the empty string instead of raising the
syntax error the claim requires for an empty result (the code only errors
when zero characters were consumed, before trimming). -/
theorem c7_counterexample :
    parseString (initState " ,") =
      .ok ("", { rest := [','], line := 1, col := 2,
                 indentStack := [0], currentIndent := 0 }) := by
  rfl

/-- C7 (amended): the unquoted branch of `parse_string` reads until one of
colon, comma, newline, tab, pipe, right bracket or right brace, trims the
consumed text, and errors exactly when ZERO characters were consumed - that
is, when the input is at its end or starts with a terminator.  A nonzero
whitespace-only run is consumed and returns the empty string successfully. -/
theorem c7_unquoted_empty_amended (st : PState)
    (hq : st.rest.head? ≠ some '"') :
    ((∃ e, parseString st = .error e) ↔ (parseUnquotedSpan st).1 = []) ∧
    ((parseUnquotedSpan st).1 = [] ↔
      (st.rest = [] ∨ ∃ c, st.rest.head? = some c ∧ unquotedTerminator c = true)) ∧
    (∀ s st1, parseString st = .ok (s, st1) →
      s = String.mk (rustTrim (parseUnquotedSpan st).1)) := by
  refine ⟨?_, ?_, ?_⟩
  · rcases hps : parseUnquotedSpan st with ⟨consumed, stA⟩
    by_cases hc : consumed = []
    · subst hc
      simp [parseString, hq, hps]
    · simp [parseString, hq, hps, hc]
  · rcases hr : st.rest with _ | ⟨c, r⟩
    · simp [parseUnquotedSpan, unquotedSpanAux, hr]
    · by_cases ht : unquotedTerminator c = true
      · simp [parseUnquotedSpan, unquotedSpanAux, hr, ht]
      · simp only [parseUnquotedSpan, unquotedSpanAux, hr, ht, if_false,
          Bool.false_eq_true]
        rcases hrec : unquotedSpanAux r st.line (st.col + 1) with
          ⟨con2, rest2, l2, k2⟩
        simp_all
  · intro s st1 hok
    rcases hps : parseUnquotedSpan st with ⟨consumed, stA⟩
    by_cases hc : consumed = []
    · subst hc
      simp [parseString, hq, hps] at hok
    · simp only [parseString, hq, if_false, hps, hc] at hok
      simp only [Except.ok.injEq, Prod.mk.injEq] at hok
      exact hok.1.symm

/-- Witness for C7 (amended) at a terminator-first input. -/
theorem c7_unquoted_empty_amended_witness :
    ((∃ e, parseString (initState ",x") = .error e) ↔
      (parseUnquotedSpan (initState ",x")).1 = []) ∧
    ((parseUnquotedSpan (initState ",x")).1 = [] ↔
      (initState ",x").rest = [] ∨
        ∃ c, (initState ",x").rest.head? = some c ∧ unquotedTerminator c = true) ∧
    (∀ s st1, parseString (initState ",x") = .ok (s, st1) →
      s = String.mk (rustTrim (parseUnquotedSpan (initState ",x")).1)) :=
  c7_unquoted_empty_amended (initState ",x") (by decide)

/-- C6 counterexample: on the line `a "b:c"` the only colon is inside
quotes, yet the parser takes the object path (its scan is a plain byte scan
that does not respect quotes), so the result is an object rather than the
scalar string the claim predicts. -/
theorem c6_counterexample :
    rustParse "a \"b:c\"" = .ok (.Object [("a \"b", .String "c\"")]) ∧
    rustParse "a \"b:c\"" ≠ .ok (.String "a \"b:c\"") := by
  have h : rustParse "a \"b:c\"" = .ok (.Object [("a \"b", .String "c\"")]) := by rfl
  refine ⟨h, ?_⟩
  rw [h]
  intro hcontra
  injection hcontra with h2
  exact Value.noConfusion h2

/-- C6 (amended): in the ambiguous top-level case (next significant char not
a bracket, quote, `t`, `f`, `n`, digit or minus) the parser scans the
current line up to the next newline for a colon - the scan does NOT skip
quoted sections - and parses an object when one is found, otherwise an
unquoted scalar coerced by trying `true`, `false`, `null`, integer, then
float, in that order, keeping the string when all fail. -/
theorem c6_ambiguous_dispatch_amended (fuel : Nat) (st : PState) (c : Char)
    (h1 : (skipWhitespace st).rest.head? = some c)
    (h2 : c ≠ '[') (h3 : c ≠ '"') (h4 : c ≠ 't') (h5 : c ≠ 'f') (h6 : c ≠ 'n')
    (h7 : isAsciiDigit c = false) (h8 : c ≠ '-') :
    parseValue (fuel + 1) st =
      (if findColonOnLine (skipWhitespace st).rest then
        parseObject fuel (skipWhitespace st)
      else
        match parseString (skipWhitespace st) with
        | .error e => .error e
        | .ok (s, st2) => .ok (literalCoerce s, st2)) ∧
    (∀ s : String, literalCoerce s =
      if s = "true" then .Bool true
      else if s = "false" then .Bool false
      else if s = "null" then .Null
      else
        match rustI64Parse s with
        | some n => .Number (.Integer n)
        | none =>
          if rustF64IsOk s then .Number (.Float (rustF64Val s)) else .String s) := by
  refine ⟨?_, fun s => rfl⟩
  simp only [parseValue, h1]
  simp [h2, h3, h4, h5, h6, h7, h8]

/-- Witness for C6 (amended) at the input `abc`. -/
theorem c6_ambiguous_dispatch_amended_witness :
    parseValue 1 (initState "abc") =
      (if findColonOnLine (skipWhitespace (initState "abc")).rest then
        parseObject 0 (skipWhitespace (initState "abc"))
      else
        match parseString (skipWhitespace (initState "abc")) with
        | .error e => .error e
        | .ok (s, st2) => .ok (literalCoerce s, st2)) :=
  (c6_ambiguous_dispatch_amended 0 (initState "abc") 'a' (by decide) (by decide)
    (by decide) (by decide) (by decide) (by decide) (by decide) (by decide)).1

/-- C9: when the declared tabular length exceeds the rows actually present,
the row loop stops at end of input without error and keeps only the parsed
rows, so any larger declared length yields the identical successful result
- the declared length is never validated against the actual row count. -/
theorem c9_table_declared_length_not_validated (headers : List String)
    (delim : Delimiter) (n : Nat) (st : PState) (rows : List (List Value))
    (st1 : PState) (h : parseTableRows n headers delim st = .ok (rows, st1))
    (hlt : rows.length < n) :
    ∀ m, n ≤ m → parseTableRows m headers delim st = .ok (rows, st1) := by
  induction n generalizing st rows st1 with
  | zero => omega
  | succ k ih =>
    intro m hm
    obtain ⟨m2, rfl⟩ : ∃ m2, m = m2 + 1 := ⟨m - 1, by omega⟩
    simp only [parseTableRows] at h ⊢
    by_cases hE : (skipWhitespace (rowNlSkip st)).rest.isEmpty
    · simp only [hE, if_true] at h ⊢
      exact h
    · simp only [hE, if_false, Bool.false_eq_true] at h ⊢
      rcases hr : parseRowCells headers true delim (skipWhitespace (rowNlSkip st)) with
        e | ⟨row, st3⟩
      · rw [hr] at h
        simp at h
      · rw [hr] at h
        dsimp only at h ⊢
        rcases hrec : parseTableRows k headers delim st3 with e | ⟨rows2, st4⟩
        · rw [hrec] at h
          cases h
        · rw [hrec] at h
          simp only [Except.ok.injEq, Prod.mk.injEq] at h
          obtain ⟨hrows, hst⟩ := h
          subst hst
          subst hrows
          have hlen : rows2.length < k := by
            simp only [List.length_cons] at hlt
            omega
          rw [ih st3 rows2 st4 hrec hlen m2 (by omega)]

/-- Witness for C9: one data row under a declared length of two; the result
is unchanged at declared length five. -/
theorem c9_table_declared_length_not_validated_witness :
    parseTableRows 5 ["a"] .Comma (initState "\n1") =
      .ok ([[.Number (.Integer 1)]],
        { rest := [], line := 2, col := 2, indentStack := [0], currentIndent := 0 }) :=
  c9_table_declared_length_not_validated ["a"] .Comma 2 (initState "\n1")
    [[.Number (.Integer 1)]]
    { rest := [], line := 2, col := 2, indentStack := [0], currentIndent := 0 }
    (by rfl) (by decide) 5 (by decide)

/-! ## C4: format selection for arrays of uniform primitive objects -/

/-- Unfolding of the lexicographic comparison on cons cells. -/
theorem charListLe_cons_iff (a b : Char) (as bs : List Char) :
    charListLe (a :: as) (b :: bs) = true ↔
      a.toNat < b.toNat ∨ (a.toNat = b.toNat ∧ charListLe as bs = true) := by
  rcases Nat.lt_trichotomy a.toNat b.toNat with h | h | h
  · simp [charListLe, h]
  · simp [charListLe, h]
  · simp [charListLe, Nat.lt_asymm h, h, Nat.ne_of_gt h]

/-- The lexicographic comparison is total. -/
theorem charListLe_total : ∀ a b : List Char,
    charListLe a b = true ∨ charListLe b a = true
  | [], _ => Or.inl rfl
  | _ :: _, [] => Or.inr rfl
  | a :: as, b :: bs => by
    rcases Nat.lt_trichotomy a.toNat b.toNat with h | h | h
    · exact Or.inl ((charListLe_cons_iff a b as bs).2 (Or.inl h))
    · rcases charListLe_total as bs with ih | ih
      · exact Or.inl ((charListLe_cons_iff a b as bs).2 (Or.inr ⟨h, ih⟩))
      · exact Or.inr ((charListLe_cons_iff b a bs as).2 (Or.inr ⟨h.symm, ih⟩))
    · exact Or.inr ((charListLe_cons_iff b a bs as).2 (Or.inl h))

/-- The lexicographic comparison is transitive. -/
theorem charListLe_trans : ∀ a b c : List Char,
    charListLe a b = true → charListLe b c = true → charListLe a c = true
  | [], _, _, _, _ => rfl
  | _ :: _, [], _, hab, _ => by cases hab
  | _ :: _, _ :: _, [], _, hbc => by cases hbc
  | a :: as, b :: bs, c :: cs, hab, hbc => by
    rcases (charListLe_cons_iff a b as bs).1 hab with h1 | ⟨h1, t1⟩ <;>
      rcases (charListLe_cons_iff b c bs cs).1 hbc with h2 | ⟨h2, t2⟩
    · exact (charListLe_cons_iff a c as cs).2 (Or.inl (Nat.lt_trans h1 h2))
    · exact (charListLe_cons_iff a c as cs).2 (Or.inl (h2 ▸ h1))
    · exact (charListLe_cons_iff a c as cs).2 (Or.inl (h1 ▸ h2))
    · exact (charListLe_cons_iff a c as cs).2
        (Or.inr ⟨h1.trans h2, charListLe_trans as bs cs t1 t2⟩)

/-- The lexicographic comparison is antisymmetric. -/
theorem charListLe_antisymm : ∀ a b : List Char,
    charListLe a b = true → charListLe b a = true → a = b
  | [], [], _, _ => rfl
  | [], _ :: _, _, hba => by cases hba
  | _ :: _, [], hab, _ => by cases hab
  | a :: as, b :: bs, hab, hba => by
    rcases (charListLe_cons_iff a b as bs).1 hab with h1 | ⟨h1, t1⟩ <;>
      rcases (charListLe_cons_iff b a bs as).1 hba with h2 | ⟨h2, t2⟩
    · exact absurd h2 (Nat.lt_asymm h1)
    · exact absurd h1 (by omega)
    · exact absurd h2 (by omega)
    · have hc : a = b := by
        have hv : a.val = b.val := UInt32.eq_of_val_eq (Fin.ext h1)
        exact Char.eq_of_val_eq hv
      rw [hc, charListLe_antisymm as bs t1 t2]

instance stringLeIsTotal : IsTotal String (fun a b => stringLe a b = true) :=
  ⟨fun a b => charListLe_total a.data b.data⟩

instance stringLeIsTrans : IsTrans String (fun a b => stringLe a b = true) :=
  ⟨fun a b c => charListLe_trans a.data b.data c.data⟩

instance stringLeIsAntisymm : IsAntisymm String (fun a b => stringLe a b = true) :=
  ⟨fun a b hab hba => by
    have h := charListLe_antisymm a.data b.data hab hba
    cases a; cases b; simp_all⟩

/-- Two key lists that are permutations of one another sort identically
(`Vec::sort` is deterministic in the multiset of keys). -/
theorem sortStrings_eq_of_perm (ka kb : List String) (h : ka.Perm kb) :
    sortStrings ka = sortStrings kb :=
  List.eq_of_perm_of_sorted
    ((List.perm_insertionSort _ ka).trans (h.trans (List.perm_insertionSort _ kb).symm))
    (List.sorted_insertionSort _ ka) (List.sorted_insertionSort _ kb)

/-- `tabRows` over objects whose sorted key lists all equal `headers` and
whose values are all primitive yields one row per object, in header order. -/
theorem tabRows_all_match (headers : List String)
    (objs : List (List (String × Value)))
    (hk : ∀ obj ∈ objs, sortStrings (entryKeys obj) = headers)
    (hp : ∀ obj ∈ objs, obj.all (fun p => isPrimitiveValue p.2) = true) :
    tabRows (objs.map Value.Object) headers =
      some (objs.map fun obj => headers.map fun k => (mapGet obj k).getD .Null) := by
  induction objs with
  | nil => rfl
  | cons o rest ih =>
    have h1 := hk o (List.mem_cons_self o rest)
    have h2 := hp o (List.mem_cons_self o rest)
    have ih2 := ih (fun obj hobj => hk obj (List.mem_cons_of_mem o hobj))
      (fun obj hobj => hp obj (List.mem_cons_of_mem o hobj))
    simp only [List.map_cons, tabRows, h1, h2, if_true, ih2]

/-- `tabRows` fails whenever some object holds a non-primitive value. -/
theorem tabRows_none_of_nonprim (headers : List String)
    (objs : List (List (String × Value)))
    (h : ∃ obj ∈ objs, ∃ p ∈ obj, isPrimitiveValue p.2 = false) :
    tabRows (objs.map Value.Object) headers = none := by
  induction objs with
  | nil => simp at h
  | cons o rest ih =>
    simp only [List.map_cons, tabRows]
    by_cases hkeq : sortStrings (entryKeys o) = headers
    · by_cases hprim : o.all (fun p => isPrimitiveValue p.2) = true
      · have hrest : ∃ obj ∈ rest, ∃ p ∈ obj, isPrimitiveValue p.2 = false := by
          rcases h with ⟨obj, hobj, p, hpmem, hfalse⟩
          rcases List.mem_cons.1 hobj with hoe | hmem
          · subst hoe
            exact absurd (List.all_eq_true.1 hprim p hpmem) (by simp [hfalse])
          · exact ⟨obj, hmem, p, hpmem, hfalse⟩
        rw [ih hrest]
        simp [hkeq, hprim]
      · simp [hkeq, hprim]
    · simp [hkeq]

/-- **C4.** For a non-empty array whose elements are all objects with an
identical key set (keys unique per object, as guaranteed by `ToonMap`) and
all values primitive, the serializer selects the tabular form, with headers
the lexicographically sorted keys of the first object and one row per object
in header order; if instead any single value of any element is an array or
an object, it selects the list form (`SeqSerializer::end`, ser.rs:350;
`can_be_tabular`, ser.rs:928). -/
theorem c4_format_selection
    (o0 : List (String × Value)) (rest : List (List (String × Value)))
    (options : ToonOptions) (indentLevel fuel : Nat)
    (hnodup : ∀ obj ∈ o0 :: rest, (entryKeys obj).Nodup)
    (hsame : ∀ obj ∈ o0 :: rest, ∀ k, k ∈ entryKeys obj ↔ k ∈ entryKeys o0) :
    ((∀ obj ∈ o0 :: rest, ∀ p ∈ obj, isPrimitiveValue p.2 = true) →
      canBeTabular ((o0 :: rest).map Value.Object) =
        some (sortStrings (entryKeys o0),
          (o0 :: rest).map fun obj =>
            (sortStrings (entryKeys o0)).map fun k => (mapGet obj k).getD .Null) ∧
      seqSerializerEnd (fuel + 1) ((o0 :: rest).map Value.Object) options indentLevel =
        writeTabularArray fuel (sortStrings (entryKeys o0))
          ((o0 :: rest).map fun obj =>
            (sortStrings (entryKeys o0)).map fun k => (mapGet obj k).getD .Null)
          options indentLevel) ∧
    ((∃ obj ∈ o0 :: rest, ∃ p ∈ obj,
        (∃ a, p.2 = Value.Array a) ∨ (∃ es, p.2 = Value.Object es)) →
      canBeTabular ((o0 :: rest).map Value.Object) = none ∧
      seqSerializerEnd (fuel + 1) ((o0 :: rest).map Value.Object) options indentLevel =
        writeListArray fuel ((o0 :: rest).map Value.Object) options indentLevel) := by
  have hho : ∀ obj ∈ o0 :: rest,
      sortStrings (entryKeys obj) = sortStrings (entryKeys o0) := fun obj hobj =>
    sortStrings_eq_of_perm _ _
      ((List.perm_ext_iff_of_nodup (hnodup obj hobj)
        (hnodup o0 (List.mem_cons_self o0 rest))).2 (hsame obj hobj))
  constructor
  · intro hprim
    have hall : ∀ obj ∈ o0 :: rest,
        obj.all (fun p => isPrimitiveValue p.2) = true := fun obj hobj =>
      List.all_eq_true.2 (fun p hp => hprim obj hobj p hp)
    have htr := tabRows_all_match (sortStrings (entryKeys o0)) (o0 :: rest) hho hall
    have hcbt : canBeTabular ((o0 :: rest).map Value.Object) =
        some (sortStrings (entryKeys o0),
          (o0 :: rest).map fun obj =>
            (sortStrings (entryKeys o0)).map fun k => (mapGet obj k).getD .Null) := by
      simp only [List.map_cons] at htr ⊢
      simp only [canBeTabular, hall o0 (List.mem_cons_self o0 rest), if_true, htr]
    refine ⟨hcbt, ?_⟩
    simp only [List.map_cons] at hcbt ⊢
    simp only [seqSerializerEnd, List.isEmpty_cons, Bool.false_eq_true, if_false, hcbt]
  · intro hex
    have hnp : ∃ obj ∈ o0 :: rest, ∃ p ∈ obj, isPrimitiveValue p.2 = false := by
      rcases hex with ⟨obj, hobj, p, hpmem, hor⟩
      refine ⟨obj, hobj, p, hpmem, ?_⟩
      rcases hor with ⟨a, ha⟩ | ⟨es, hes⟩
      · rw [ha]; rfl
      · rw [hes]; rfl
    have hcbt : canBeTabular ((o0 :: rest).map Value.Object) = none := by
      by_cases hp0 : o0.all (fun p => isPrimitiveValue p.2) = true
      · have htn := tabRows_none_of_nonprim (sortStrings (entryKeys o0)) (o0 :: rest) hnp
        simp only [List.map_cons] at htn ⊢
        simp only [canBeTabular, hp0, if_true, htn]
      · simp only [List.map_cons, canBeTabular]
        simp [hp0]
    refine ⟨hcbt, ?_⟩
    simp only [List.map_cons] at hcbt ⊢
    simp only [seqSerializerEnd, List.isEmpty_cons, Bool.false_eq_true, if_false, hcbt,
      List.all_cons, isPrimitiveValue, Bool.false_and, if_false]

/-- Witness for C4 at a concrete two-object array with crossed key order:
`can_be_tabular` yields the sorted headers and the per-object rows. -/
theorem c4_format_selection_witness :
    canBeTabular [Value.Object [("b", Value.Bool true), ("a", Value.Null)],
        Value.Object [("a", Value.String "x"), ("b", Value.Number (Number.Integer 1))]] =
      some (["a", "b"],
        [[Value.Null, Value.Bool true],
         [Value.String "x", Value.Number (Number.Integer 1)]]) := by
  have h := ((c4_format_selection [("b", Value.Bool true), ("a", Value.Null)]
      [[("a", Value.String "x"), ("b", Value.Number (Number.Integer 1))]]
      defaultOptions 0 7
      (by intro obj hobj
          simp only [List.mem_cons, List.not_mem_nil, or_false] at hobj
          rcases hobj with rfl | rfl <;> decide)
      (by intro obj hobj
          simp only [List.mem_cons, List.not_mem_nil, or_false] at hobj
          rcases hobj with rfl | rfl
          · intro k; exact Iff.rfl
          · intro k
            simp only [entryKeys, List.map_cons, List.map_nil, List.mem_cons,
              List.not_mem_nil, or_false]
            exact or_comm)).1
      (by intro obj hobj p hpmem
          simp only [List.mem_cons, List.not_mem_nil, or_false] at hobj
          rcases hobj with rfl | rfl <;>
            (simp only [List.mem_cons, List.not_mem_nil, or_false] at hpmem
             rcases hpmem with rfl | rfl <;> rfl))).1
  have hs : sortStrings (entryKeys [("b", Value.Bool true), ("a", Value.Null)]) =
      ["a", "b"] := by decide
  rw [hs] at h
  exact h

/-! ## C8: the Table row-length invariant of the parser -/

/-- The `Table` shape invariant: every `Table` node anywhere in a value has
each row exactly as long as its header list. -/
inductive TableOk : Value → Prop where
  | null : TableOk .Null
  | bool (b : Bool) : TableOk (.Bool b)
  | number (n : Number) : TableOk (.Number n)
  | string (s : String) : TableOk (.String s)
  | date (d : Int) : TableOk (.Date d)
  | bigint (i : Int) : TableOk (.BigInt i)
  | array (vs : List Value) : (∀ v ∈ vs, TableOk v) → TableOk (.Array vs)
  | object (es : List (String × Value)) :
      (∀ p ∈ es, TableOk p.2) → TableOk (.Object es)
  | table (headers : List String) (rows : List (List Value)) :
      (∀ r ∈ rows, r.length = headers.length) →
      (∀ r ∈ rows, ∀ v ∈ r, TableOk v) →
      TableOk (.Table headers rows)

/-- The literal-coercion chain only builds primitives. -/
theorem literalCoerce_tableOk (s : String) : TableOk (literalCoerce s) := by
  unfold literalCoerce
  repeat' split
  all_goals first
    | exact TableOk.bool _
    | exact TableOk.null
    | exact TableOk.number _
    | exact TableOk.string _

/-- `parse_primitive_value` only builds primitives, so its output satisfies
the invariant. -/
theorem parsePrimitiveValue_tableOk (st : PState) (v : Value) (st2 : PState)
    (h : parsePrimitiveValue st = .ok (v, st2)) : TableOk v := by
  simp only [parsePrimitiveValue] at h
  rcases hp : (skipWhitespace st).rest.head? with _ | c <;> rw [hp] at h <;> dsimp only at h
  · rw [if_neg (by simp)] at h
    rw [if_neg (by simp)] at h
    rw [if_neg (by simp)] at h
    rw [if_neg (by simp)] at h
    rcases hs : parseString (skipWhitespace st) with e | ⟨s, stx⟩ <;> rw [hs] at h
    · simp at h
    · dsimp only at h
      simp only [Except.ok.injEq, Prod.mk.injEq] at h
      obtain ⟨hv, hst⟩ := h
      subst hv
      exact literalCoerce_tableOk _
  · by_cases h1 : some c = some '"'
    · rw [if_pos h1] at h
      rcases hs : parseString (skipWhitespace st) with e | ⟨s, stx⟩ <;> rw [hs] at h
      · simp at h
      · dsimp only at h
        simp only [Except.ok.injEq, Prod.mk.injEq] at h
        obtain ⟨hv, hst⟩ := h
        subst hv
        exact TableOk.string _
    · rw [if_neg h1] at h
      by_cases h2 : (decide (some c = some 't') || decide (some c = some 'f')) = true
      · rw [if_pos h2] at h
        rcases hb : parseBool (skipWhitespace st) with e | ⟨b, stx⟩ <;> rw [hb] at h
        · simp at h
        · dsimp only at h
          simp only [Except.ok.injEq, Prod.mk.injEq] at h
          obtain ⟨hv, hst⟩ := h
          subst hv
          exact TableOk.bool _
      · rw [if_neg h2] at h
        by_cases h3 : some c = some 'n'
        · rw [if_pos h3] at h
          rcases hn : parseNull (skipWhitespace st) with e | ⟨u, stx⟩ <;> rw [hn] at h
          · simp at h
          · dsimp only at h
            simp only [Except.ok.injEq, Prod.mk.injEq] at h
            obtain ⟨hv, hst⟩ := h
            subst hv
            exact TableOk.null
        · rw [if_neg h3] at h
          by_cases h4 : (isAsciiDigit c || decide (c = '-')) = true
          · rw [if_pos h4] at h
            rcases hm : parseNumber (skipWhitespace st) with e | ⟨num, stx⟩ <;> rw [hm] at h
            · simp at h
            · dsimp only at h
              simp only [Except.ok.injEq, Prod.mk.injEq] at h
              obtain ⟨hv, hst⟩ := h
              subst hv
              exact TableOk.number _
          · rw [if_neg h4] at h
            rcases hs : parseString (skipWhitespace st) with e | ⟨s, stx⟩ <;> rw [hs] at h
            · simp at h
            · dsimp only at h
              simp only [Except.ok.injEq, Prod.mk.injEq] at h
              obtain ⟨hv, hst⟩ := h
              subst hv
              exact literalCoerce_tableOk _

/-- The cell loop of a table row returns exactly one cell per header, all
primitive. -/
theorem parseRowCells_tableOk : ∀ (headers : List String) (first : Bool)
    (delim : Delimiter) (st : PState) (vs : List Value) (st2 : PState),
    parseRowCells headers first delim st = .ok (vs, st2) →
    vs.length = headers.length ∧ ∀ v ∈ vs, TableOk v
  | [], _, _, st, vs, st2, h => by
    simp only [parseRowCells, Except.ok.injEq, Prod.mk.injEq] at h
    obtain ⟨hv, hst⟩ := h
    subst hv
    exact ⟨rfl, fun v hv => absurd hv (List.not_mem_nil v)⟩
  | _ :: hs, first, delim, st, vs, st2, h => by
    simp only [parseRowCells] at h
    rcases hprim : parsePrimitiveValue (cellStart first delim st) with e | ⟨v1, stv⟩ <;>
      rw [hprim] at h
    · simp at h
    · dsimp only at h
      rcases hc : parseRowCells hs false delim stv with e | ⟨cells, st3⟩ <;> rw [hc] at h
      · simp at h
      · dsimp only at h
        simp only [Except.ok.injEq, Prod.mk.injEq] at h
        obtain ⟨hv, hst⟩ := h
        subst hv
        obtain ⟨hlen, hok⟩ := parseRowCells_tableOk hs false delim stv cells st3 hc
        refine ⟨by simp [hlen], ?_⟩
        intro w hw
        rcases List.mem_cons.1 hw with rfl | hmem
        · exact parsePrimitiveValue_tableOk _ _ _ hprim
        · exact hok w hmem

/-- The row loop of `parse_table` returns rows of exactly the header
length, all cells primitive. -/
theorem parseTableRows_tableOk : ∀ (count : Nat) (headers : List String)
    (delim : Delimiter) (st : PState) (rows : List (List Value)) (st2 : PState),
    parseTableRows count headers delim st = .ok (rows, st2) →
    (∀ r ∈ rows, r.length = headers.length) ∧ (∀ r ∈ rows, ∀ v ∈ r, TableOk v)
  | 0, headers, delim, st, rows, st2, h => by
    simp only [parseTableRows, Except.ok.injEq, Prod.mk.injEq] at h
    obtain ⟨hv, hst⟩ := h
    subst hv
    exact ⟨fun r hr => absurd hr (List.not_mem_nil r),
      fun r hr => absurd hr (List.not_mem_nil r)⟩
  | n + 1, headers, delim, st, rows, st2, h => by
    simp only [parseTableRows] at h
    by_cases hE : (skipWhitespace (rowNlSkip st)).rest.isEmpty = true
    · rw [if_pos hE] at h
      simp only [Except.ok.injEq, Prod.mk.injEq] at h
      obtain ⟨hv, hst⟩ := h
      subst hv
      exact ⟨fun r hr => absurd hr (List.not_mem_nil r),
        fun r hr => absurd hr (List.not_mem_nil r)⟩
    · rw [if_neg hE] at h
      rcases hrc : parseRowCells headers true delim (skipWhitespace (rowNlSkip st)) with
        e | ⟨row, st3⟩ <;> rw [hrc] at h
      · simp at h
      · dsimp only at h
        rcases hrw : parseTableRows n headers delim st3 with e | ⟨rows2, st4⟩ <;>
          rw [hrw] at h
        · simp at h
        · dsimp only at h
          simp only [Except.ok.injEq, Prod.mk.injEq] at h
          obtain ⟨hv, hst⟩ := h
          subst hv
          obtain ⟨hlen1, hok1⟩ := parseRowCells_tableOk headers true delim _ row st3 hrc
          obtain ⟨hlen2, hok2⟩ := parseTableRows_tableOk n headers delim st3 rows2 st4 hrw
          constructor
          · intro r hr
            rcases List.mem_cons.1 hr with rfl | hmem
            · exact hlen1
            · exact hlen2 r hmem
          · intro r hr
            rcases List.mem_cons.1 hr with rfl | hmem
            · exact hok1
            · exact hok2 r hmem

/-- `parse_table` output satisfies the invariant. -/
theorem parseTable_tableOk (len : Nat) (delim : Delimiter) (st : PState)
    (v : Value) (st2 : PState) (h : parseTable len delim st = .ok (v, st2)) :
    TableOk v := by
  simp only [parseTable] at h
  split at h
  · simp at h
  · rcases hh : parseTableHeaders ((advance1 st).rest.length + 1) (advance1 st) with
      e | ⟨headers, sth⟩ <;> rw [hh] at h
    · simp at h
    · dsimp only at h
      split at h
      · simp at h
      · split at h
        · simp at h
        · rcases hrw : parseTableRows len headers delim (advance1 (advance1 sth)) with
            e | ⟨rows, st5⟩ <;> rw [hrw] at h
          · simp at h
          · dsimp only at h
            simp only [Except.ok.injEq, Prod.mk.injEq] at h
            obtain ⟨hv, hst⟩ := h
            subst hv
            obtain ⟨hlen, hok⟩ := parseTableRows_tableOk len headers delim _ rows st5 hrw
            exact TableOk.table headers rows hlen hok

/-- The inline-array element loop only builds primitives. -/
theorem parseInlineElems_tableOk : ∀ (count : Nat) (first : Bool)
    (delim : Delimiter) (st : PState) (vs : List Value) (st2 : PState),
    parseInlineElems count first delim st = .ok (vs, st2) → ∀ v ∈ vs, TableOk v
  | 0, _, _, st, vs, st2, h => by
    simp only [parseInlineElems, Except.ok.injEq, Prod.mk.injEq] at h
    obtain ⟨hv, hst⟩ := h
    subst hv
    exact fun v hv => absurd hv (List.not_mem_nil v)
  | n + 1, first, delim, st, vs, st2, h => by
    simp only [parseInlineElems] at h
    rcases hprim : parsePrimitiveValue (cellStart first delim st) with e | ⟨v1, stv⟩ <;>
      rw [hprim] at h
    · simp at h
    · dsimp only at h
      rcases hc : parseInlineElems n false delim stv with e | ⟨cells, st3⟩ <;> rw [hc] at h
      · simp at h
      · dsimp only at h
        simp only [Except.ok.injEq, Prod.mk.injEq] at h
        obtain ⟨hv, hst⟩ := h
        subst hv
        intro w hw
        rcases List.mem_cons.1 hw with rfl | hmem
        · exact parsePrimitiveValue_tableOk _ _ _ hprim
        · exact parseInlineElems_tableOk n false delim stv cells st3 hc w hmem

/-- `IndexMap::insert` preserves the invariant of all stored values. -/
theorem mapInsert_tableOk : ∀ (m : List (String × Value)) (k : String) (v : Value),
    (∀ p ∈ m, TableOk p.2) → TableOk v → ∀ p ∈ mapInsert m k v, TableOk p.2
  | [], k, v, _, hv => by
    intro p hp
    simp only [mapInsert, List.mem_cons, List.not_mem_nil, or_false] at hp
    subst hp
    exact hv
  | (k1, v1) :: rest, k, v, hm, hv => by
    intro p hp
    simp only [mapInsert] at hp
    by_cases hk : k1 = k
    · rw [if_pos hk] at hp
      rcases List.mem_cons.1 hp with rfl | hmem
      · exact hv
      · exact hm p (List.mem_cons_of_mem _ hmem)
    · rw [if_neg hk] at hp
      rcases List.mem_cons.1 hp with rfl | hmem
      · exact hm (k1, v1) (List.mem_cons_self _ _)
      · exact mapInsert_tableOk rest k v
          (fun q hq => hm q (List.mem_cons_of_mem _ hq)) hv p hmem

/-- Fuel induction over the mutually recursive parser: every successful
result satisfies the Table invariant (the accumulator-threading loops
preserve it). -/
theorem parser_tableOk (fuel : Nat) :
    (∀ st v st2, parseValue fuel st = .ok (v, st2) → TableOk v) ∧
    (∀ st v st2, parseObject fuel st = .ok (v, st2) → TableOk v) ∧
    (∀ map base st res st2, (∀ p ∈ map, TableOk p.2) →
      parseObjectLoop fuel map base st = .ok (res, st2) → ∀ p ∈ res, TableOk p.2) ∧
    (∀ map base st res st2, (∀ p ∈ map, TableOk p.2) →
      parseObjectField fuel map base st = .ok (res, st2) → ∀ p ∈ res, TableOk p.2) ∧
    (∀ st v st2, parseArray fuel st = .ok (v, st2) → TableOk v) ∧
    (∀ count st vs st2, parseListElems fuel count st = .ok (vs, st2) →
      ∀ v ∈ vs, TableOk v) := by
  induction fuel with
  | zero =>
    refine ⟨?_, ?_, ?_, ?_, ?_, ?_⟩
    · intro st v st2 h; simp [parseValue] at h
    · intro st v st2 h; simp [parseObject] at h
    · intro map base st res st2 hmap h; simp [parseObjectLoop] at h
    · intro map base st res st2 hmap h; simp [parseObjectField] at h
    · intro st v st2 h; simp [parseArray] at h
    · intro count st vs st2 h; simp [parseListElems] at h
  | succ n ih =>
    obtain ⟨ihV, ihO, ihL, ihF, ihA, ihE⟩ := ih
    refine ⟨?_, ?_, ?_, ?_, ?_, ?_⟩
    · intro st v st2 h
      simp only [parseValue] at h
      rcases hp : (skipWhitespace st).rest.head? with _ | c <;> rw [hp] at h <;>
        dsimp only at h
      · simp only [Except.ok.injEq, Prod.mk.injEq] at h
        obtain ⟨hv, hst⟩ := h
        subst hv
        exact TableOk.object [] (fun p hp => absurd hp (List.not_mem_nil p))
      · by_cases h1 : c = '['
        · rw [if_pos h1] at h
          exact ihA _ v st2 h
        · rw [if_neg h1] at h
          by_cases h2 : c = '"'
          · rw [if_pos h2] at h
            rcases hs : parseString (skipWhitespace st) with e | ⟨s, stx⟩ <;> rw [hs] at h
            · simp at h
            · dsimp only at h
              simp only [Except.ok.injEq, Prod.mk.injEq] at h
              obtain ⟨hv, hst⟩ := h
              subst hv
              exact TableOk.string _
          · rw [if_neg h2] at h
            by_cases h3 : (decide (c = 't') || decide (c = 'f')) = true
            · rw [if_pos h3] at h
              rcases hb : parseBool (skipWhitespace st) with e | ⟨b, stx⟩ <;> rw [hb] at h
              · simp at h
              · dsimp only at h
                simp only [Except.ok.injEq, Prod.mk.injEq] at h
                obtain ⟨hv, hst⟩ := h
                subst hv
                exact TableOk.bool _
            · rw [if_neg h3] at h
              by_cases h4 : c = 'n'
              · rw [if_pos h4] at h
                rcases hn : parseNull (skipWhitespace st) with e | ⟨u, stx⟩ <;> rw [hn] at h
                · simp at h
                · dsimp only at h
                  simp only [Except.ok.injEq, Prod.mk.injEq] at h
                  obtain ⟨hv, hst⟩ := h
                  subst hv
                  exact TableOk.null
              · rw [if_neg h4] at h
                by_cases h5 : (isAsciiDigit c || decide (c = '-')) = true
                · rw [if_pos h5] at h
                  rcases hm : parseNumber (skipWhitespace st) with e | ⟨num, stx⟩ <;>
                    rw [hm] at h
                  · simp at h
                  · dsimp only at h
                    simp only [Except.ok.injEq, Prod.mk.injEq] at h
                    obtain ⟨hv, hst⟩ := h
                    subst hv
                    exact TableOk.number _
                · rw [if_neg h5] at h
                  by_cases h6 : findColonOnLine (skipWhitespace st).rest = true
                  · rw [if_pos h6] at h
                    exact ihO _ v st2 h
                  · rw [if_neg h6] at h
                    rcases hs : parseString (skipWhitespace st) with e | ⟨s, stx⟩ <;>
                      rw [hs] at h
                    · simp at h
                    · dsimp only at h
                      simp only [Except.ok.injEq, Prod.mk.injEq] at h
                      obtain ⟨hv, hst⟩ := h
                      subst hv
                      exact literalCoerce_tableOk _
    · intro st v st2 h
      simp only [parseObject] at h
      split at h
      · split at h
        · simp only [Except.ok.injEq, Prod.mk.injEq] at h
          obtain ⟨hv, hst⟩ := h
          subst hv
          exact TableOk.object [] (fun p hp => absurd hp (List.not_mem_nil p))
        · split at h
          · simp only [Except.ok.injEq, Prod.mk.injEq] at h
            obtain ⟨hv, hst⟩ := h
            subst hv
            exact TableOk.object [] (fun p hp => absurd hp (List.not_mem_nil p))
          · rcases hloop : parseObjectLoop n []
                st.currentIndent (pushIndent (skipWsSameLine st) st.currentIndent) with
              e | ⟨map, stF⟩ <;> rw [hloop] at h
            · simp at h
            · dsimp only at h
              simp only [Except.ok.injEq, Prod.mk.injEq] at h
              obtain ⟨hv, hst⟩ := h
              subst hv
              exact TableOk.object map
                (ihL [] _ _ map stF (fun p hp => absurd hp (List.not_mem_nil p)) hloop)
      · split at h
        · simp only [Except.ok.injEq, Prod.mk.injEq] at h
          obtain ⟨hv, hst⟩ := h
          subst hv
          exact TableOk.object [] (fun p hp => absurd hp (List.not_mem_nil p))
        · rcases hloop : parseObjectLoop n []
              st.currentIndent (pushIndent (skipWsSameLine st) st.currentIndent) with
            e | ⟨map, stF⟩ <;> rw [hloop] at h
          · simp at h
          · dsimp only at h
            simp only [Except.ok.injEq, Prod.mk.injEq] at h
            obtain ⟨hv, hst⟩ := h
            subst hv
            exact TableOk.object map
              (ihL [] _ _ map stF (fun p hp => absurd hp (List.not_mem_nil p)) hloop)
    · intro map base st res st2 hmap h
      simp only [parseObjectLoop] at h
      split at h
      · split at h
        · simp only [Except.ok.injEq, Prod.mk.injEq] at h
          obtain ⟨hv, hst⟩ := h
          subst hv
          exact hmap
        · split at h
          · exact ihL _ _ _ _ _ hmap h
          · exact ihF _ _ _ _ _ hmap h
      · split at h
        · simp only [Except.ok.injEq, Prod.mk.injEq] at h
          obtain ⟨hv, hst⟩ := h
          subst hv
          exact hmap
        · exact ihF _ _ _ _ _ hmap h
    · intro map base st res st2 hmap h
      simp only [parseObjectField] at h
      split at h
      · exact ihL _ _ _ _ _ hmap h
      · rcases hkey : parseString (skipWsSameLine st) with e | ⟨key, s2⟩ <;> rw [hkey] at h
        · simp at h
        · dsimp only at h
          split at h
          · simp at h
          · split at h
            · rcases hval : parseValue n
                  { advance1 (skipWsSameLine (advance1 (skipWsSameLine s2))) with
                    currentIndent :=
                      detectIndentLevel
                        (advance1 (skipWsSameLine (advance1 (skipWsSameLine s2)))) } with
                e | ⟨v1, s6⟩ <;> rw [hval] at h
              · simp at h
              · dsimp only at h
                exact ihL _ _ _ _ _ (mapInsert_tableOk map _ v1 hmap (ihV _ _ _ hval)) h
            · rcases hval : parseValue n (skipWsSameLine (advance1 (skipWsSameLine s2))) with
                e | ⟨v1, s6⟩ <;> rw [hval] at h
              · simp at h
              · dsimp only at h
                exact ihL _ _ _ _ _ (mapInsert_tableOk map _ v1 hmap (ihV _ _ _ hval)) h
    · intro st v st2 h
      simp only [parseArray] at h
      split at h
      · simp at h
      · rcases hds : spanDigitsState (arrayMarkerSkip (advance1 st)) with ⟨ds, st3⟩
        rw [hds] at h
        dsimp only at h
        split at h
        · simp at h
        · rcases hdl : arrayDelimProbe st3 with ⟨delim, st4⟩
          rw [hdl] at h
          dsimp only at h
          split at h
          · simp at h
          · split at h
            · exact parseTable_tableOk _ _ _ v st2 h
            · split at h
              · simp at h
              · split at h
                · simp only [Except.ok.injEq, Prod.mk.injEq] at h
                  obtain ⟨hv, hst⟩ := h
                  subst hv
                  exact TableOk.array [] (fun w hw => absurd hw (List.not_mem_nil w))
                · split at h
                  · rcases helems : parseListElems n (digitsToNat ds)
                        (skipWhitespace (advance1 (advance1 st4))) with
                      e | ⟨vs, st8⟩ <;> rw [helems] at h
                    · simp at h
                    · dsimp only at h
                      simp only [Except.ok.injEq, Prod.mk.injEq] at h
                      obtain ⟨hv, hst⟩ := h
                      subst hv
                      exact TableOk.array vs (ihE _ _ vs st8 helems)
                  · rcases helems : parseInlineElems (digitsToNat ds) true delim
                        (skipWhitespace (advance1 (advance1 st4))) with
                      e | ⟨vs, st8⟩ <;> rw [helems] at h
                    · simp at h
                    · dsimp only at h
                      simp only [Except.ok.injEq, Prod.mk.injEq] at h
                      obtain ⟨hv, hst⟩ := h
                      subst hv
                      exact TableOk.array vs
                        (parseInlineElems_tableOk _ true _ _ vs st8 helems)
    · intro count st vs st2 h
      simp only [parseListElems] at h
      split at h
      · simp only [Except.ok.injEq, Prod.mk.injEq] at h
        obtain ⟨hv, hst⟩ := h
        subst hv
        exact fun v hv => absurd hv (List.not_mem_nil v)
      · split at h
        · simp at h
        · split at h
          · simp at h
          · rename_i k hdash hspace
            rcases hval : parseValue n
                (advance1 (advance1 (skipWhitespace
                  { rowNlSkip st with currentIndent := detectIndentLevel (rowNlSkip st) }))) with
              e | ⟨v1, st5⟩ <;> rw [hval] at h
            · simp at h
            · dsimp only at h
              rcases helems : parseListElems n k st5 with e | ⟨vs2, st6⟩ <;> rw [helems] at h
              · simp at h
              · dsimp only at h
                simp only [Except.ok.injEq, Prod.mk.injEq] at h
                obtain ⟨hv, hst⟩ := h
                subst hv
                intro w hw
                rcases List.mem_cons.1 hw with rfl | hmem
                · exact ihV _ _ _ hval
                · exact ihE _ _ _ _ helems w hmem

/-- **C8.** Every `Table` value produced by the parser satisfies the
invariant that each row has exactly as many entries as there are headers:
any successful `parse_value` run yields a value all of whose `Table` nodes
satisfy `rows[i].length == headers.length` (`parse_table`, de.rs:473;
the row loop stops at the declared count and each row is built by
`parse_row_cells` with exactly one cell per header, de.rs:506-551). -/
theorem c8_table_rows_invariant (fuel : Nat) (st : PState) (v : Value)
    (st2 : PState) (h : parseValue fuel st = .ok (v, st2)) : TableOk v :=
  (parser_tableOk fuel).1 st v st2 h

/-- Witness for C8: a concrete two-row table parse satisfies the invariant. -/
theorem c8_table_rows_invariant_witness :
    TableOk (.Table ["a", "b"]
      [[.Number (.Integer 1), .Number (.Integer 2)],
       [.Number (.Integer 3), .Number (.Integer 4)]]) :=
  c8_table_rows_invariant (parserFuel "[2]\x7ba,b\x7d:\n  1,2\n  3,4")
    (initState "[2]\x7ba,b\x7d:\n  1,2\n  3,4")
    (.Table ["a", "b"]
      [[.Number (.Integer 1), .Number (.Integer 2)],
       [.Number (.Integer 3), .Number (.Integer 4)]])
    { rest := [], line := 3, col := 6, indentStack := [0], currentIndent := 0 }
    (by rfl)

/-! ## C1: the round trip on the scalar fragment -/

/-- ASCII letters; the specification-side fragment predicate used by the
amended round-trip claim. -/
def isAsciiAlpha (c : Char) : Bool :=
  ('a' ≤ c && c ≤ 'z') || ('A' ≤ c && c ≤ 'Z')

/-- Char order reflects to code points. -/
theorem char_le_iff (a b : Char) : (a ≤ b) ↔ a.toNat ≤ b.toNat := Iff.rfl

/-- Char equality reflects to code points. -/
theorem char_eq_iff (a b : Char) : a = b ↔ a.toNat = b.toNat := by
  constructor
  · intro h; rw [h]
  · intro h; exact Char.eq_of_val_eq (UInt32.eq_of_val_eq (Fin.ext h))

/-- No Unicode whitespace lives between `!` (33) and `}` (125). -/
theorem rustIsWhitespace_false (c : Char) (h1 : 33 ≤ c.toNat) (h2 : c.toNat ≤ 125) :
    rustIsWhitespace c = false := by
  simp only [rustIsWhitespace, Bool.or_eq_false_iff, Bool.and_eq_false_iff,
    decide_eq_false_iff_not, char_eq_iff, char_le_iff,
    show (' ').toNat = 32 from rfl, show ('\t').toNat = 9 from rfl,
    show ('\n').toNat = 10 from rfl, show ('\x0d').toNat = 13 from rfl,
    show (Char.ofNat 0x0b).toNat = 0x0b from rfl,
    show (Char.ofNat 0x0c).toNat = 0x0c from rfl,
    show (Char.ofNat 0x85).toNat = 0x85 from rfl,
    show (Char.ofNat 0xa0).toNat = 0xa0 from rfl,
    show (Char.ofNat 0x1680).toNat = 0x1680 from rfl,
    show (Char.ofNat 0x2000).toNat = 0x2000 from rfl,
    show (Char.ofNat 0x200a).toNat = 0x200a from rfl,
    show (Char.ofNat 0x2028).toNat = 0x2028 from rfl,
    show (Char.ofNat 0x2029).toNat = 0x2029 from rfl,
    show (Char.ofNat 0x202f).toNat = 0x202f from rfl,
    show (Char.ofNat 0x205f).toNat = 0x205f from rfl,
    show (Char.ofNat 0x3000).toNat = 0x3000 from rfl]
  refine ⟨⟨⟨⟨⟨⟨⟨⟨⟨?_, ?_⟩, ?_⟩, ?_⟩, ?_⟩, ?_⟩, ?_⟩, ?_⟩, ?_⟩, ?_⟩ <;> omega

/-- Code-point range of an ASCII letter. -/
theorem alpha_range (c : Char) (h : isAsciiAlpha c = true) :
    (97 ≤ c.toNat ∧ c.toNat ≤ 122) ∨ (65 ≤ c.toNat ∧ c.toNat ≤ 90) := by
  simp only [isAsciiAlpha, Bool.or_eq_true, Bool.and_eq_true, decide_eq_true_eq,
    char_le_iff, show ('a').toNat = 97 from rfl, show ('z').toNat = 122 from rfl,
    show ('A').toNat = 65 from rfl, show ('Z').toNat = 90 from rfl] at h
  exact h

/-- Code-point range of an ASCII digit. -/
theorem digit_range (c : Char) (h : isAsciiDigit c = true) :
    48 ≤ c.toNat ∧ c.toNat ≤ 57 := by
  simp only [isAsciiDigit, Bool.and_eq_true, decide_eq_true_eq, char_le_iff,
    show ('0').toNat = 48 from rfl, show ('9').toNat = 57 from rfl] at h
  exact h

/-- Code-point range establishes an ASCII digit. -/
theorem digit_of_range (c : Char) (h1 : 48 ≤ c.toNat) (h2 : c.toNat ≤ 57) :
    isAsciiDigit c = true := by
  simp only [isAsciiDigit, Bool.and_eq_true, decide_eq_true_eq, char_le_iff,
    show ('0').toNat = 48 from rfl, show ('9').toNat = 57 from rfl]
  omega

/-- An ASCII letter differs from any char outside the letter ranges. -/
theorem alpha_ne (c : Char) (h : isAsciiAlpha c = true) (t : Char)
    (ht : t.toNat < 65 ∨ (90 < t.toNat ∧ t.toNat < 97) ∨ 122 < t.toNat) : c ≠ t := by
  rcases alpha_range c h with ⟨h1, h2⟩ | ⟨h1, h2⟩ <;>
    (intro he; rw [char_eq_iff] at he; omega)

/-- An ASCII digit differs from any char outside the digit range. -/
theorem digit_ne (c : Char) (h : isAsciiDigit c = true) (t : Char)
    (ht : t.toNat < 48 ∨ 57 < t.toNat) : c ≠ t := by
  obtain ⟨h1, h2⟩ := digit_range c h
  intro he; rw [char_eq_iff] at he; omega

/-- Letters terminate nothing in the unquoted-string terminator set. -/
theorem unquotedTerminator_alpha (c : Char) (h : isAsciiAlpha c = true) :
    unquotedTerminator c = false := by
  have n1 : c ≠ ':' := alpha_ne c h ':' (by decide)
  have n2 : c ≠ ',' := alpha_ne c h ',' (by decide)
  have n3 : c ≠ '\n' := alpha_ne c h '\n' (by decide)
  have n4 : c ≠ '\t' := alpha_ne c h '\t' (by decide)
  have n5 : c ≠ '|' := alpha_ne c h '|' (by decide)
  have n6 : c ≠ ']' := alpha_ne c h ']' (by decide)
  have n7 : c ≠ rbrace := alpha_ne c h rbrace (by decide)
  simp [unquotedTerminator, n1, n2, n3, n4, n5, n6, n7]

/-- `contains` fails when every member differs from the probe. -/
theorem contains_false (cs : List Char) (a : Char) (h : ∀ c ∈ cs, c ≠ a) :
    cs.contains a = false := by
  simp only [List.contains, List.elem_eq_mem, decide_eq_false_iff_not]
  intro hmem
  exact h a hmem rfl

/-- Code point of a decimal digit char. -/
theorem digitChar10_toNat (d : Nat) (h : d < 10) : (digitChar10 d).toNat = 48 + d := by
  interval_cases d <;> rfl

/-- Decimal digit chars are ASCII digits. -/
theorem digitChar10_digit (d : Nat) (h : d < 10) : isAsciiDigit (digitChar10 d) = true :=
  digit_of_range _ (by rw [digitChar10_toNat d h]; omega)
    (by rw [digitChar10_toNat d h]; omega)

/-- The fueled digit-list worker is nonempty, all digits, and re-reads to its
input under sufficient fuel. -/
theorem natDigitsAux_spec : ∀ f m, m < f →
    natDigitsAux f m ≠ [] ∧ (∀ c ∈ natDigitsAux f m, isAsciiDigit c = true) ∧
    digitsToNat (natDigitsAux f m) = m
  | 0, m, h => absurd h (by omega)
  | f + 1, m, h => by
    by_cases hm : m < 10
    · simp only [natDigitsAux, if_pos hm]
      refine ⟨by simp, ?_, ?_⟩
      · intro c hc
        simp only [List.mem_singleton] at hc
        subst hc
        exact digitChar10_digit m hm
      · simp only [digitsToNat, List.foldl_cons, List.foldl_nil]
        rw [digitChar10_toNat m hm]
        omega
    · simp only [natDigitsAux, if_neg hm]
      have hdiv : m / 10 < f := by
        have h1 : m / 10 < m := Nat.div_lt_self (by omega) (by omega)
        omega
      obtain ⟨hne, hall, hval⟩ := natDigitsAux_spec f (m / 10) hdiv
      refine ⟨by simp, ?_, ?_⟩
      · intro c hc
        rcases List.mem_append.1 hc with hc1 | hc2
        · exact hall c hc1
        · simp only [List.mem_singleton] at hc2
          subst hc2
          exact digitChar10_digit _ (Nat.mod_lt m (by omega))
      · simp only [digitsToNat] at hval ⊢
        rw [List.foldl_append, hval]
        simp only [List.foldl_cons, List.foldl_nil]
        rw [digitChar10_toNat _ (Nat.mod_lt m (by omega))]
        omega

/-- The decimal rendering of a natural: nonempty, all digits, re-reads to the
input. -/
theorem natDigits_spec (m : Nat) :
    natDigits m ≠ [] ∧ (∀ c ∈ natDigits m, isAsciiDigit c = true) ∧
    digitsToNat (natDigits m) = m := natDigitsAux_spec (m + 1) m (by omega)

/-- A sign-less non-empty list keeps its head through `splitSign`. -/
theorem splitSign_cons (c : Char) (r : List Char) (h1 : c ≠ '+') (h2 : c ≠ '-') :
    splitSign (c :: r) = (1, c :: r) := by
  unfold splitSign
  split
  · rename_i heq
    injection heq with hc _
    exact absurd hc h1
  · rename_i heq
    injection heq with hc _
    exact absurd hc h2
  · rfl

/-- `i64::MIN` as a numeral. -/
theorem i64Min_eq : i64Min = -9223372036854775808 := by norm_num [i64Min]

/-- `i64::MAX` as a numeral. -/
theorem i64Max_eq : i64Max = 9223372036854775807 := by norm_num [i64Max]

/-- Rust reparses the decimal rendering of an in-range natural. -/
theorem rustI64Parse_digits (m : Nat) (hm : (m : Int) ≤ i64Max) :
    rustI64Parse (String.mk (natDigits m)) = some (m : Int) := by
  obtain ⟨hne, hall, hval⟩ := natDigits_spec m
  rcases hds : natDigits m with _ | ⟨c, r⟩
  · exact absurd hds hne
  · have hcd : isAsciiDigit c = true := hall c (by rw [hds]; exact List.mem_cons_self c r)
    have h1 : c ≠ '+' := digit_ne c hcd '+' (by decide)
    have h2 : c ≠ '-' := digit_ne c hcd '-' (by decide)
    rw [hds] at hall hval
    have hallb : (c :: r).all isAsciiDigit = true := List.all_eq_true.2 hall
    simp only [rustI64Parse, splitSign_cons c r h1 h2]
    rw [if_neg (by simp [hallb]), hval, if_pos (by
      simp only [Bool.and_eq_true, decide_eq_true_eq]
      rw [i64Min_eq] at *
      rw [i64Max_eq] at *
      omega)]
    simp

/-- Rust reparses the decimal rendering of an in-range negative integer. -/
theorem rustI64Parse_neg_digits (m : Nat) (hm : i64Min ≤ -(m : Int)) :
    rustI64Parse (String.mk ('-' :: natDigits m)) = some (-(m : Int)) := by
  obtain ⟨hne, hall, hval⟩ := natDigits_spec m
  rcases hds : natDigits m with _ | ⟨c, r⟩
  · exact absurd hds hne
  · rw [hds] at hall hval
    have hallb : (c :: r).all isAsciiDigit = true := List.all_eq_true.2 hall
    simp only [rustI64Parse, hds, show splitSign ('-' :: c :: r) = (-1, c :: r) from rfl]
    rw [if_neg (by simp [hallb]), hval, if_pos (by
      simp only [Bool.and_eq_true, decide_eq_true_eq]
      rw [i64Min_eq] at *
      rw [i64Max_eq]
      omega)]
    simp

/-- Rust reparses `i64::to_string` exactly for every in-range integer. -/
theorem rustI64Parse_i64ToString (i : Int) (hlo : i64Min ≤ i) (hhi : i ≤ i64Max) :
    rustI64Parse (i64ToString i) = some i := by
  by_cases hneg : i < 0
  · have habs : (i.natAbs : Int) = -i := by omega
    rw [i64ToString, if_pos hneg,
      rustI64Parse_neg_digits i.natAbs (by rw [habs]; simpa using hlo)]
    rw [habs]
    simp
  · have habs : (i.natAbs : Int) = i := by omega
    rw [i64ToString, if_neg hneg, natToString,
      rustI64Parse_digits i.natAbs (by rw [habs]; exact hhi), habs]

/-- The digit loop of `parse_number` consumes a digit-only tail whole with no
decimal flag. -/
theorem numberLoopAux_digits : ∀ (ds : List Char) (l k : Nat),
    (∀ c ∈ ds, isAsciiDigit c = true) →
    numberLoopAux ds l k false = (ds, [], l, k + ds.length, false)
  | [], l, k, _ => by simp [numberLoopAux]
  | c :: r, l, k, hall => by
    simp only [numberLoopAux, if_pos (hall c (List.mem_cons_self c r)),
      numberLoopAux_digits r l (k + 1) (fun d hd => hall d (List.mem_cons_of_mem c hd))]
    simp only [Prod.mk.injEq, List.length_cons]
    refine ⟨trivial, trivial, trivial, by omega, trivial⟩

/-- The digit loop on the cursor state for a digit-only rest. -/
theorem parseNumberLoop_digits (st : PState) (ds : List Char)
    (hrest : st.rest = ds) (hall : ∀ c ∈ ds, isAsciiDigit c = true) :
    parseNumberLoop st false =
      (ds, { st with rest := [], col := st.col + ds.length }, false) := by
  simp only [parseNumberLoop, hrest, numberLoopAux_digits ds st.line st.col hall]

/-- `parse_number` reads back any in-range `i64::to_string` output. -/
theorem parseNumber_i64 (i : Int) (hlo : i64Min ≤ i) (hhi : i ≤ i64Max)
    (st : PState) (hrest : st.rest = (i64ToString i).data) :
    ∃ st1, parseNumber st = .ok (.Integer i, st1) := by
  obtain ⟨hne, hall, _⟩ := natDigits_spec i.natAbs
  by_cases hneg : i < 0
  · have hdata : st.rest = '-' :: natDigits i.natAbs := by
      rw [hrest, i64ToString, if_pos hneg]
    have hadv : advance1 st =
        (⟨natDigits i.natAbs, st.line, st.col + 1, st.indentStack,
          st.currentIndent⟩ : PState) := by
      simp only [advance1, hdata]
      rw [if_neg (by decide)]
    have hcond : st.rest.head? = some '-' := by rw [hdata]; rfl
    refine ⟨⟨[], st.line, st.col + 1 + (natDigits i.natAbs).length, st.indentStack,
      st.currentIndent⟩, ?_⟩
    simp only [parseNumber, hcond, eq_self_iff_true, if_true, hadv]
    rw [parseNumberLoop_digits (⟨natDigits i.natAbs, st.line, st.col + 1, st.indentStack,
      st.currentIndent⟩ : PState) (natDigits i.natAbs) rfl hall]
    dsimp only
    rw [if_neg Bool.false_ne_true]
    rw [show String.mk (['-'] ++ natDigits i.natAbs) = i64ToString i from by
      rw [i64ToString, if_pos hneg]
      rfl]
    rw [rustI64Parse_i64ToString i hlo hhi]
  · have hdata : st.rest = natDigits i.natAbs := by
      rw [hrest, i64ToString, if_neg hneg, natToString]
    rcases hds : natDigits i.natAbs with _ | ⟨c, r⟩
    · exact absurd hds hne
    · have hcd : isAsciiDigit c = true := hall c (by rw [hds]; exact List.mem_cons_self c r)
      have hcm : c ≠ '-' := digit_ne c hcd '-' (by decide)
      have hcond2 : ¬(st.rest.head? = some '-') := by
        rw [hdata, hds]
        simp only [List.head?]
        intro he
        exact hcm (Option.some.inj he)
      refine ⟨⟨[], st.line, st.col + (natDigits i.natAbs).length, st.indentStack,
        st.currentIndent⟩, ?_⟩
      simp only [parseNumber, if_neg hcond2]
      rw [parseNumberLoop_digits st (natDigits i.natAbs) hdata hall]
      dsimp only [List.nil_append]
      rw [if_neg Bool.false_ne_true]
      rw [show String.mk (natDigits i.natAbs) = i64ToString i from by
        rw [i64ToString, if_neg hneg, natToString]]
      rw [rustI64Parse_i64ToString i hlo hhi]

/-- `skip_whitespace` is the identity when the next char is not whitespace. -/
theorem skipWhitespace_nonws (st : PState) (c : Char) (r : List Char)
    (hrest : st.rest = c :: r) (hc : rustIsWhitespace c = false) :
    skipWhitespace st = st := by
  simp only [skipWhitespace, hrest, skipWsAux, hc, Bool.false_and, Bool.false_eq_true,
    if_false]
  cases st
  simp_all

/-- The colon scan fails on a colon-free line list. -/
theorem findColonOnLine_none : ∀ cs : List Char, (∀ c ∈ cs, c ≠ ':') →
    findColonOnLine cs = false
  | [], _ => rfl
  | c :: r, h => by
    simp only [findColonOnLine, if_neg (h c (List.mem_cons_self c r))]
    split
    · rfl
    · exact findColonOnLine_none r (fun d hd => h d (List.mem_cons_of_mem c hd))

/-- The unquoted-string loop consumes a terminator-free list whole. -/
theorem unquotedSpanAux_all : ∀ (cs : List Char) (l k : Nat),
    (∀ c ∈ cs, unquotedTerminator c = false) →
    unquotedSpanAux cs l k = (cs, [], l, k + cs.length)
  | [], l, k, _ => by simp [unquotedSpanAux]
  | c :: r, l, k, h => by
    simp only [unquotedSpanAux, h c (List.mem_cons_self c r), Bool.false_eq_true, if_false,
      unquotedSpanAux_all r l (k + 1) (fun d hd => h d (List.mem_cons_of_mem c hd))]
    simp only [Prod.mk.injEq, List.length_cons]
    refine ⟨trivial, trivial, trivial, by omega⟩

/-- `dropWhile` keeps a list whose members all fail the predicate. -/
theorem dropWhile_nonws (cs : List Char) (h : ∀ c ∈ cs, rustIsWhitespace c = false) :
    cs.dropWhile rustIsWhitespace = cs := by
  cases cs with
  | nil => rfl
  | cons c r =>
    rw [List.dropWhile_cons_of_neg]
    simp [h c (List.mem_cons_self c r)]

/-- `str::trim` is the identity on whitespace-free content. -/
theorem rustTrim_id (cs : List Char) (h : ∀ c ∈ cs, rustIsWhitespace c = false) :
    rustTrim cs = cs := by
  unfold rustTrim
  rw [dropWhile_nonws cs h,
    dropWhile_nonws cs.reverse (fun c hc => h c (List.mem_reverse.1 hc)),
    List.reverse_reverse]

/-- Letters are never whitespace. -/
theorem alpha_not_ws (c : Char) (h : isAsciiAlpha c = true) :
    rustIsWhitespace c = false := by
  rcases alpha_range c h with ⟨h1, h2⟩ | ⟨h1, h2⟩ <;>
    exact rustIsWhitespace_false c (by omega) (by omega)

/-- `parse_string` returns an all-letters input unchanged. -/
theorem parseString_alpha (st : PState) (s : String)
    (hrest : st.rest = s.data) (hne : s.data ≠ [])
    (halpha : ∀ c ∈ s.data, isAsciiAlpha c = true) :
    ∃ st1, parseString st = .ok (s, st1) := by
  rcases hd : s.data with _ | ⟨c0, r⟩
  · exact absurd hd hne
  · have hc0 : isAsciiAlpha c0 = true := halpha c0 (by rw [hd]; exact List.mem_cons_self c0 r)
    refine ⟨⟨[], st.line, st.col + s.data.length, st.indentStack,
      st.currentIndent⟩, ?_⟩
    simp only [parseString]
    rw [if_neg (by
      rw [hrest, hd]
      simp only [List.head?]
      intro he
      exact alpha_ne c0 hc0 '"' (by decide) (Option.some.inj he))]
    simp only [parseUnquotedSpan, hrest,
      unquotedSpanAux_all s.data st.line st.col
        (fun c hc => unquotedTerminator_alpha c (halpha c hc))]
    rw [if_neg hne, rustTrim_id s.data (fun c hc => alpha_not_ws c (halpha c hc))]


/-- The literal-coercion chain keeps an all-letters non-literal string. -/
theorem literalCoerce_alpha (s : String) (hne : s.data ≠ [])
    (halpha : ∀ c ∈ s.data, isAsciiAlpha c = true)
    (hhead : ∀ c, s.data.head? = some c → c ≠ 't' ∧ c ≠ 'f' ∧ c ≠ 'n')
    (hf64 : rustF64IsOk s = false) :
    literalCoerce s = .String s := by
  have hs1 : ¬(s = "true") := fun he => (hhead 't' (by rw [he]; rfl)).1 rfl
  have hs2 : ¬(s = "false") := fun he => (hhead 'f' (by rw [he]; rfl)).2.1 rfl
  have hs3 : ¬(s = "null") := fun he => (hhead 'n' (by rw [he]; rfl)).2.2 rfl
  rcases hd : s.data with _ | ⟨c0, r⟩
  · exact absurd hd hne
  · have hc0 : isAsciiAlpha c0 = true := halpha c0 (by rw [hd]; exact List.mem_cons_self c0 r)
    have hi64 : rustI64Parse s = none := by
      have h1 : c0 ≠ '+' := alpha_ne c0 hc0 '+' (by decide)
      have h2 : c0 ≠ '-' := alpha_ne c0 hc0 '-' (by decide)
      have hnd : isAsciiDigit c0 = false := by
        rcases alpha_range c0 hc0 with ⟨ha, hb⟩ | ⟨ha, hb⟩ <;>
          (simp only [isAsciiDigit, Bool.and_eq_false_iff, decide_eq_false_iff_not,
            char_le_iff, show ('0').toNat = 48 from rfl, show ('9').toNat = 57 from rfl]
           omega)
      simp only [rustI64Parse, hd, splitSign_cons c0 r h1 h2]
      rw [if_pos (by simp [List.all_cons, hnd])]
    simp only [literalCoerce, if_neg hs1, if_neg hs2, if_neg hs3, hi64]
    rw [if_neg (by simp [hf64])]

/-- `parse_value` on an in-range integer rendering. -/
theorem parseValue_i64 (i : Int) (hlo : i64Min ≤ i) (hhi : i ≤ i64Max) (n : Nat) :
    ∃ st1, parseValue (n + 1) (initState (i64ToString i)) =
      .ok (.Number (.Integer i), st1) := by
  obtain ⟨hne, hall, _⟩ := natDigits_spec i.natAbs
  obtain ⟨st1, hpn⟩ := parseNumber_i64 i hlo hhi (initState (i64ToString i)) rfl
  by_cases hneg : i < 0
  · have hdata : (initState (i64ToString i)).rest = '-' :: natDigits i.natAbs := by
      simp only [initState]
      rw [i64ToString, if_pos hneg]
    have hws : skipWhitespace (initState (i64ToString i)) = initState (i64ToString i) :=
      skipWhitespace_nonws _ '-' _ hdata (rustIsWhitespace_false '-' (by decide) (by decide))
    refine ⟨st1, ?_⟩
    simp only [parseValue, hws, hdata]
    dsimp only [List.head?]
    rw [if_neg (by decide), if_neg (by decide), if_neg (by decide), if_neg (by decide),
      if_pos (by decide)]
    rw [hpn]
  · have hdata : (initState (i64ToString i)).rest = natDigits i.natAbs := by
      simp only [initState]
      rw [i64ToString, if_neg hneg, natToString]
    rcases hds : natDigits i.natAbs with _ | ⟨c, r⟩
    · exact absurd hds hne
    · have hcd : isAsciiDigit c = true := hall c (by rw [hds]; exact List.mem_cons_self c r)
      have hws : skipWhitespace (initState (i64ToString i)) = initState (i64ToString i) := by
        refine skipWhitespace_nonws _ c r (by rw [hdata, hds]) ?_
        obtain ⟨ha, hb⟩ := digit_range c hcd
        exact rustIsWhitespace_false c (by omega) (by omega)
      refine ⟨st1, ?_⟩
      simp only [parseValue, hws, hdata, hds]
      dsimp only [List.head?]
      rw [if_neg (digit_ne c hcd '[' (by decide)),
        if_neg (digit_ne c hcd '"' (by decide)),
        if_neg (by
          simp only [Bool.or_eq_true, decide_eq_true_eq]
          rintro (he | he)
          · exact digit_ne c hcd 't' (by decide) he
          · exact digit_ne c hcd 'f' (by decide) he),
        if_neg (digit_ne c hcd 'n' (by decide)),
        if_pos (by simp [hcd])]
      rw [hpn]

/-- `parse_value` on an all-letters non-literal string. -/
theorem parseValue_alpha (s : String) (hne : s.data ≠ [])
    (halpha : ∀ c ∈ s.data, isAsciiAlpha c = true)
    (hhead : ∀ c, s.data.head? = some c → c ≠ 't' ∧ c ≠ 'f' ∧ c ≠ 'n')
    (hf64 : rustF64IsOk s = false) (n : Nat) :
    ∃ st1, parseValue (n + 1) (initState s) = .ok (.String s, st1) := by
  rcases hd : s.data with _ | ⟨c0, r⟩
  · exact absurd hd hne
  · have hc0 : isAsciiAlpha c0 = true := halpha c0 (by rw [hd]; exact List.mem_cons_self c0 r)
    obtain ⟨hct, hcf, hcn⟩ := hhead c0 (by rw [hd]; rfl)
    have hws : skipWhitespace (initState s) = initState s :=
      skipWhitespace_nonws _ c0 r (by rw [show (initState s).rest = s.data from rfl, hd])
        (alpha_not_ws c0 hc0)
    obtain ⟨st1, hps⟩ := parseString_alpha (initState s) s rfl hne halpha
    refine ⟨st1, ?_⟩
    simp only [parseValue, hws, show (initState s).rest = c0 :: r from hd]
    dsimp only [List.head?]
    rw [if_neg (alpha_ne c0 hc0 '[' (by decide)),
      if_neg (alpha_ne c0 hc0 '"' (by decide)),
      if_neg (by
        simp only [Bool.or_eq_true, decide_eq_true_eq]
        rintro (he | he)
        · exact hct he
        · exact hcf he),
      if_neg hcn,
      if_neg (by
        simp only [Bool.or_eq_true, decide_eq_true_eq]
        rintro (he | he)
        · rcases alpha_range c0 hc0 with ⟨ha, hb⟩ | ⟨ha, hb⟩ <;>
            (obtain ⟨hx, hy⟩ := digit_range c0 he; omega)
        · exact alpha_ne c0 hc0 '-' (by decide) he),
      if_neg (by
        have hfc : findColonOnLine (c0 :: r) = false := by
          rw [← hd]
          exact findColonOnLine_none s.data
            (fun c hc => alpha_ne c (halpha c hc) ':' (by decide))
        simp [hfc])]
    rw [hps]
    dsimp only
    rw [literalCoerce_alpha s hne halpha hhead hf64]

/-- The bare top-level quoting predicate passes an all-letters non-literal
string. -/
theorem serializerNeedsQuotes_alpha (s : String) (hne : s.data ≠ [])
    (halpha : ∀ c ∈ s.data, isAsciiAlpha c = true)
    (hhead : ∀ c, s.data.head? = some c → c ≠ 't' ∧ c ≠ 'f' ∧ c ≠ 'n')
    (hf64 : rustF64IsOk s = false) :
    serializerNeedsQuotes s = false := by
  have hcont : ∀ a : Char,
      (a.toNat < 65 ∨ (90 < a.toNat ∧ a.toNat < 97) ∨ 122 < a.toNat) →
      s.data.contains a = false := fun a ha =>
    contains_false s.data a (fun c hc => alpha_ne c (halpha c hc) a ha)
  have hs1 : ¬(s = "true") := fun he => (hhead 't' (by rw [he]; rfl)).1 rfl
  have hs2 : ¬(s = "false") := fun he => (hhead 'f' (by rw [he]; rfl)).2.1 rfl
  have hs3 : ¬(s = "null") := fun he => (hhead 'n' (by rw [he]; rfl)).2.2 rfl
  rcases hd : s.data with _ | ⟨c0, r⟩
  · exact absurd hd hne
  · have hc0 : isAsciiAlpha c0 = true := halpha c0 (by rw [hd]; exact List.mem_cons_self c0 r)
    have hlast : ¬(s.data.getLast? = some ' ') := by
      intro he
      obtain ⟨hx, hy⟩ := List.mem_getLast?_eq_getLast (by simpa [Option.mem_def] using he)
      have hmem : ' ' ∈ s.data := by rw [hy]; exact List.getLast_mem hx
      exact absurd (halpha ' ' hmem) (by decide)
    simp only [serializerNeedsQuotes, Bool.or_eq_false_iff]
    refine ⟨⟨⟨⟨⟨⟨⟨⟨⟨⟨⟨⟨⟨⟨?_, ?_⟩, ?_⟩, ?_⟩, ?_⟩, ?_⟩, ?_⟩, ?_⟩, ?_⟩, ?_⟩, ?_⟩, ?_⟩, ?_⟩,
      ?_⟩, ?_⟩
    · rw [hd]; rfl
    · exact hcont ':' (by decide)
    · exact hcont ',' (by decide)
    · exact hcont '\n' (by decide)
    · exact hcont '\t' (by decide)
    · exact hcont '|' (by decide)
    · exact hcont '"' (by decide)
    · exact hcont '\\' (by decide)
    · exact hcont nulChar (by decide)
    · simp only [decide_eq_false_iff_not, hd]
      simp only [List.head?]
      intro he
      exact alpha_ne c0 hc0 ' ' (by decide) (Option.some.inj he)
    · simp only [decide_eq_false_iff_not]
      exact hlast
    · simp only [decide_eq_false_iff_not]
      exact hs1
    · simp only [decide_eq_false_iff_not]
      exact hs2
    · simp only [decide_eq_false_iff_not]
      exact hs3
    · exact hf64

/-- **C1 counterexample.** The string value `tree` serializes unquoted, but
re-parsing dispatches on the leading `t` to `parse_bool`, which rejects it:
the round trip errors instead of returning the value, falsifying the claim
for `Value::String("tree")` (serialize: ser.rs:108; dispatch: de.rs:729). -/
theorem c1_counterexample :
    rustToString (.String "tree") = some "tree" ∧
    rustParse "tree" = .error ⟨1, 1, "Expected boolean"⟩ :=
  ⟨rfl, rfl⟩

/-- **C1 (amended).** The round trip holds on the scalar fragment: `Null`,
booleans, in-range integers, and all-letters strings that avoid the
`t`/`f`/`n` dispatch heads and the float grammar re-parse to themselves
(to_string: lib.rs:167; from_str: lib.rs:332). -/
theorem c1_scalar_roundtrip_amended (v : Value)
    (hfrag : v = .Null ∨ (∃ b, v = .Bool b) ∨
      (∃ i, v = .Number (.Integer i) ∧ i64Min ≤ i ∧ i ≤ i64Max) ∨
      (∃ s, v = .String s ∧ s.data ≠ [] ∧ (∀ c ∈ s.data, isAsciiAlpha c = true) ∧
        (∀ c, s.data.head? = some c → c ≠ 't' ∧ c ≠ 'f' ∧ c ≠ 'n') ∧
        rustF64IsOk s = false)) :
    (rustToString v).isSome = true ∧
    ∀ out, rustToString v = some out → rustParse out = .ok v := by
  rcases hfrag with rfl | ⟨b, rfl⟩ | ⟨i, rfl, hlo, hhi⟩ | ⟨s, rfl, hne, halpha, hhead, hf64⟩
  · refine ⟨rfl, ?_⟩
    intro out hout
    simp only [rustToString, rustToStringWith, Option.some.injEq] at hout
    subst hout
    rfl
  · rcases b with _ | _
    · refine ⟨rfl, ?_⟩
      intro out hout
      simp only [rustToString, rustToStringWith, Option.some.injEq] at hout
      subst hout
      rfl
    · refine ⟨rfl, ?_⟩
      intro out hout
      simp only [rustToString, rustToStringWith, Option.some.injEq] at hout
      subst hout
      rfl
  · refine ⟨rfl, ?_⟩
    intro out hout
    simp only [rustToString, rustToStringWith, Option.some.injEq] at hout
    subst hout
    obtain ⟨fp, hfp⟩ : ∃ fp, parserFuel (i64ToString i) = fp + 1 :=
      ⟨4 * (i64ToString i).length + 63, by simp [parserFuel]⟩
    obtain ⟨st1, hpv⟩ := parseValue_i64 i hlo hhi fp
    simp only [rustParse, hfp, hpv]
    rfl
  · refine ⟨?_, ?_⟩
    · simp only [rustToString, rustToStringWith, writeString,
        serializerNeedsQuotes_alpha s hne halpha hhead hf64, Bool.false_eq_true, if_false,
        Option.isSome_some]
    · intro out hout
      simp only [rustToString, rustToStringWith, writeString,
        serializerNeedsQuotes_alpha s hne halpha hhead hf64, Bool.false_eq_true, if_false,
        Option.some.injEq] at hout
      subst hout
      obtain ⟨fp, hfp⟩ : ∃ fp, parserFuel s = fp + 1 :=
        ⟨4 * s.length + 63, by simp [parserFuel]⟩
      obtain ⟨st1, hpv⟩ := parseValue_alpha s hne halpha hhead hf64 fp
      simp only [rustParse, hfp, hpv]
      rfl

/-- Witness for the amended C1: the integer 42 and the string `tree`
round-trip through serialization. -/
theorem c1_scalar_roundtrip_amended_witness :
    rustParse "42" = .ok (.Number (.Integer 42)) :=
  (c1_scalar_roundtrip_amended (.Number (.Integer 42))
    (Or.inr (Or.inr (Or.inl ⟨42, rfl, by rw [i64Min_eq]; omega,
      by rw [i64Max_eq]; omega⟩)))).2 "42" (by rfl)

end SerdeToon
